import Mathlib

/-!
# UnderByte codec engine — verification of the natural-language specification

Shallow embedding of `src/utils/steganography.ts` (the pixel-LSB codec, the
JPEG-coefficient codec, the file-header framer, filename sanitation, and the
zero-width-character text codec).  Byte arrays (`Uint8Array`) are modelled as
`List Nat` (a `Uint8Array` store truncates values mod 256, which the model
makes explicit where a store happens); JPEG coefficients (`Int32Array`) are
modelled as `List Int` with an explicit 32-bit signed wrap on stores; strings
are modelled as `List Char`.  Functions that `throw` are modelled with
`Except String`; functions that return `null` are modelled with `Option`.
External collaborators (DEFLATE compression, AES-CTR encryption, UTF-8
transcoding — all supplied by the platform, out of scope per the spec) are
taken as explicit function parameters, with their contracts as hypotheses.
-/

namespace UnderByte

/-! ## Size ceilings (source constants) -/

def MAX_EMBED_FILE_SIZE : Nat := 10 * 1024 * 1024

def MAX_IMAGE_DIMENSION : Nat := 10000

def MAX_FILENAME_LENGTH : Nat := 255

def MAX_SECRET_LENGTH : Nat := 50000

/-! ## BitStream: `bytesToBits` / `bitsToBytes` -/

/-- `bits[i*8+j] = (byte >> j) & 1`: each byte emits 8 bits, LSB first. -/
def bytesToBits : List Nat → List Nat
  | [] => []
  | b :: rest => ((List.range 8).map fun j => (b >>> j) &&& 1) ++ bytesToBits rest

/-- The accumulator `acc |= (bit & 1) << j` of `bitsToBytes` (and of
`embedLSB`'s `bitsToEmbed`): the head of the list lands in bit position 0. -/
def chunkVal : List Nat → Nat
  | [] => 0
  | b :: t => (b &&& 1) ||| (chunkVal t <<< 1)

/-- `byteCount = floor(bits.length / 8)`; byte `i` collects bits
`8*i .. 8*i+7` LSB-first; a trailing group of fewer than 8 bits is dropped. -/
def bitsToBytes (bits : List Nat) : List Nat :=
  (List.range (bits.length / 8)).map fun i => chunkVal ((bits.drop (8 * i)).take 8)

/-! ## PixelLSBCodec: `embedLSB` / `extractLSB`

`embedLSB` first validates the bit depth, makes a fresh copy `result` of
`imageData`, checks capacity, then walks the copy skipping every byte at
index `i % 4 == 3` (alpha) and writes up to `bitDepth` payload bits into the
low bits of each remaining byte via `(byte & (0xFF << bitDepth)) | chunk`.
The model returns the pair (caller's `imageData` array after the call,
thrown error or returned buffer): the source never writes through
`imageData` (every store hits the copy `result`), so the first component is
the argument itself. -/

/-- Source capacity formula `Math.floor((imageData.length / 4) * 3) * bitDepth`
(in bits). -/
def lsbMaxBits (len bitDepth : Nat) : Nat := len * 3 / 4 * bitDepth

/-- The embedding loop of `embedLSB`, acting on the copied buffer.  `i` is the
running byte index (for the `i % 4 === 3` alpha test); the loop exits as soon
as the payload is exhausted, leaving the remaining bytes of the copy as they
were; a stored value is truncated mod 256 by the `Uint8Array`. -/
def embedGo (bitDepth i : Nat) : List Nat → List Nat → List Nat
  | [], _ => []
  | ds, [] => ds
  | b :: rest, x :: bs =>
    if i % 4 = 3 then b :: embedGo bitDepth (i + 1) rest (x :: bs)
    else
      ((b &&& (0xFF <<< bitDepth)) ||| chunkVal ((x :: bs).take bitDepth)) % 256
        :: embedGo bitDepth (i + 1) rest ((x :: bs).drop bitDepth)

/-- The extraction loop of `extractLSB`: reads `(byte >> j) & 1` for
`j < bitDepth` from every non-alpha byte until `need` bits are collected. -/
def extractGo (bitDepth i : Nat) : List Nat → Nat → List Nat
  | [], _ => []
  | _ :: _, 0 => []
  | b :: rest, n + 1 =>
    if i % 4 = 3 then extractGo bitDepth (i + 1) rest (n + 1)
    else
      ((List.range (min bitDepth (n + 1))).map fun j => (b >>> j) &&& 1)
        ++ extractGo bitDepth (i + 1) rest (n + 1 - min bitDepth (n + 1))

def embedLSB (imageData messageBits : List Nat) (bitDepth : Nat) :
    List Nat × Except String (List Nat) :=
  if bitDepth < 1 ∨ bitDepth > 4 then
    (imageData, .error "Bit depth must be between 1 and 4")
  else if messageBits.length > lsbMaxBits imageData.length bitDepth then
    (imageData, .error ("Message too large. Max capacity: " ++
      toString (lsbMaxBits imageData.length bitDepth) ++ " bits, got: " ++
      toString messageBits.length ++ " bits"))
  else
    (imageData, .ok (embedGo bitDepth 0 imageData messageBits))

/-- `extractLSB` preallocates `bitCount` zero bytes and fills
`min bitCount maxBits` of them from the pixels. -/
def extractLSB (imageData : List Nat) (bitCount bitDepth : Nat) :
    Except String (List Nat) :=
  if bitDepth < 1 ∨ bitDepth > 4 then
    .error "Bit depth must be between 1 and 4"
  else
    .ok ((extractGo bitDepth 0 imageData (min bitCount (lsbMaxBits imageData.length bitDepth)))
      ++ List.replicate (bitCount -
          (extractGo bitDepth 0 imageData (min bitCount (lsbMaxBits imageData.length bitDepth))).length) 0)

/-- Number of non-alpha byte positions when walking `data` starting at
running index `i` (proof-layer helper, not a source function). -/
def nonAlphaCount (i : Nat) : List Nat → Nat
  | [] => 0
  | _ :: rest => (if i % 4 = 3 then 0 else 1) + nonAlphaCount (i + 1) rest

/-! ## Capacity & dimension validation -/

/-- `width`/`height` are natural numbers in the model (the source's negative
and non-integer rejections concern values a `Nat` cannot denote); zero and
the dimension/pixel-count ceilings are checked in source order. -/
def validateImageDimensions (width height : Nat) : Except String Unit :=
  if width = 0 ∨ height = 0 then .error "Invalid image dimensions"
  else if width > MAX_IMAGE_DIMENSION ∨ height > MAX_IMAGE_DIMENSION then
    .error "Image dimensions too large"
  else if width * height > MAX_IMAGE_DIMENSION * MAX_IMAGE_DIMENSION then
    .error "Image size too large"
  else .ok ()

/-- `calculateBitCapacity` validates the dimensions, then returns
`Math.floor(width*height*3*bitDepth/8)`.  Note: the source performs no
bit-depth validation here. -/
def calculateBitCapacity (width height bitDepth : Nat) : Except String Nat :=
  match validateImageDimensions width height with
  | .error e => .error e
  | .ok _ => .ok (width * height * 3 * bitDepth / 8)

/-! ## Filename sanitation -/

/-- The character class of the source regex `/[/\\?%*:|"<>]/g`. -/
def isHazardChar (c : Char) : Bool :=
  c == '/' || c == '\\' || c == '?' || c == '%' || c == '*' || c == ':' ||
  c == '|' || c == '"' || c == '<' || c == '>'

/-- JavaScript `String.prototype.trim` whitespace (WhiteSpace ∪ LineTerminator). -/
def isJsWhitespace (c : Char) : Bool :=
  c == ' ' || c == '\t' || c == '\n' || c == '\x0b' || c == '\x0c' ||
  c == '\r' || c == '\u00A0' || c == '\uFEFF' || c == '\u1680' ||
  c == '\u2000' || c == '\u2001' || c == '\u2002' || c == '\u2003' ||
  c == '\u2004' || c == '\u2005' || c == '\u2006' || c == '\u2007' ||
  c == '\u2008' || c == '\u2009' || c == '\u200A' || c == '\u2028' ||
  c == '\u2029' || c == '\u202F' || c == '\u205F' || c == '\u3000'

def trimChars (l : List Char) : List Char :=
  ((l.dropWhile isJsWhitespace).reverse.dropWhile isJsWhitespace).reverse

/-- `lastIndexOf "."`: index of the last occurrence, if any. -/
def lastIndexOfChar (c : Char) (l : List Char) : Option Nat :=
  (List.findIdx? (fun x => x == c) l.reverse).map fun r => l.length - 1 - r

/-- Step 1: strip hazard characters (regex replace); step 2: strip the
leading run of dots (regex `^\.+`, anchored, applied once); step 3:
`trim()`. -/
def sanitizeBase (filename : List Char) : List Char :=
  trimChars ((filename.filter fun c => !isHazardChar c).dropWhile (· == '.'))

/-- Empty fallback `"file"`; then clamp to `MAX_FILENAME_LENGTH`, keeping the
extension (text from the last dot, when it is not at index 0) intact;
`substring` with a negative end clamps to 0. -/
def sanitizeFilename (filename : List Char) : List Char :=
  if filename = [] then ['f', 'i', 'l', 'e']
  else if sanitizeBase filename = [] then ['f', 'i', 'l', 'e']
  else if (sanitizeBase filename).length > MAX_FILENAME_LENGTH then
    match lastIndexOfChar '.' (sanitizeBase filename) with
    | some ext =>
      if ext > 0 then
        ((sanitizeBase filename).take ext).take
            (MAX_FILENAME_LENGTH - ((sanitizeBase filename).length - ext))
          ++ (sanitizeBase filename).drop ext
      else (sanitizeBase filename).take MAX_FILENAME_LENGTH
    | none => (sanitizeBase filename).take MAX_FILENAME_LENGTH
  else sanitizeBase filename

/-! ## FileHeader framer -/

/-- `DataView.setUint32(·, n, true)`: 4 bytes, little-endian (and mod 2^32). -/
def u32le (n : Nat) : List Nat :=
  [n % 256, n / 256 % 256, n / 65536 % 256, n / 16777216 % 256]

/-- `DataView.getUint32(·, true)` over (the first 4 entries of) `l`. -/
def u32leGet (l : List Nat) : Nat :=
  l.getD 0 0 + l.getD 1 0 * 256 + l.getD 2 0 * 65536 + l.getD 3 0 * 16777216

structure FileHeaderInfo where
  fileName : List Char
  fileSize : Nat
  payloadOffset : Nat
deriving DecidableEq

/-- `[0x55, nameLen, name bytes, u32-LE size]`.  `utf8enc` is the platform
`TextEncoder`; the one-byte length field truncates mod 256 on store. -/
def prepareFileHeader (utf8enc : List Char → List Nat)
    (fileName : List Char) (fileSize : Nat) : List Nat :=
  0x55 :: ((utf8enc fileName).length % 256) :: ((utf8enc fileName) ++ u32le fileSize)

/-- `utf8decLossy` is the platform `TextDecoder("utf-8", {fatal:false})`
(total: it never throws).  Checks in source order: short buffer / magic
mismatch; name length over the bound; truncated header; empty decoded name;
size out of bounds; declared total length over the available bytes. -/
def parseFileHeader (utf8decLossy : List Nat → List Char) (bytes : List Nat) :
    Option FileHeaderInfo :=
  if bytes.length < 2 then none
  else if bytes.getD 0 0 ≠ 0x55 then none
  else if bytes.getD 1 0 > MAX_FILENAME_LENGTH then none
  else if bytes.length < 2 + bytes.getD 1 0 + 4 then none
  else if utf8decLossy ((bytes.drop 2).take (bytes.getD 1 0)) = [] then none
  else if u32leGet ((bytes.drop (2 + bytes.getD 1 0)).take 4) > MAX_EMBED_FILE_SIZE ∨
      u32leGet ((bytes.drop (2 + bytes.getD 1 0)).take 4) = 0 then none
  else if bytes.length <
      (2 + bytes.getD 1 0 + 4) + u32leGet ((bytes.drop (2 + bytes.getD 1 0)).take 4) then none
  else some ⟨sanitizeFilename (utf8decLossy ((bytes.drop 2).take (bytes.getD 1 0))),
    u32leGet ((bytes.drop (2 + bytes.getD 1 0)).take 4), 2 + bytes.getD 1 0 + 4⟩

/-! ## JPEGCoefficientCodec -/

structure JPEGComponentCoefficients where
  id : Nat
  blocks : List (List (List Int))
deriving DecidableEq

structure JPEGQuantizedCoefficients where
  components : List JPEGComponentCoefficients
deriving DecidableEq

/-- `block[i] !== 0 && block[i] !== 1 && block[i] !== -1`. -/
def usableCoeff (c : Int) : Bool := c != 0 && c != 1 && c != -1

/-- An `Int32Array` store wraps to the signed 32-bit range. -/
def int32wrap (v : Int) : Int := (v + 2 ^ 31) % 2 ^ 32 - 2 ^ 31

def IsInt32 (c : Int) : Prop := -(2 ^ 31) ≤ c ∧ c < 2 ^ 31

instance decIsInt32 (c : Int) : Decidable (IsInt32 c) :=
  inferInstanceAs (Decidable (_ ∧ _))

/-- One iteration of the inner embed loop at a single AC coefficient: an
unusable coefficient is passed over; at a usable one, if the LSB of the
magnitude already equals the payload bit the bit is consumed with no store;
otherwise the magnitude's low bit is set (`|1`) or cleared (`&~1`, i.e.
`& 0xFFFFFFFE` on the 32-bit value), except that a result whose stored value
(positive case) or magnitude (negative case) would be 0 or 1 is rolled back
and the coefficient skipped without consuming the bit. -/
def embedCoeffStep (c : Int) : List Nat → Int × List Nat
  | [] => (c, [])
  | b :: bs =>
    if usableCoeff c then
      if c.natAbs &&& 1 ≠ b &&& 1 then
        if c > 0 then
          let v := int32wrap
            ((if b &&& 1 = 1 then c.toNat ||| 1 else c.toNat &&& 0xFFFFFFFE : Nat) : Int)
          if v = 0 ∨ v = 1 then (c, b :: bs) else (v, bs)
        else
          let newAbs : Nat :=
            if b &&& 1 = 1 then (-c).toNat ||| 1 else (-c).toNat &&& 0xFFFFFFFE
          if newAbs = 0 ∨ newAbs = 1 then (c, b :: bs)
          else (int32wrap (-(newAbs : Int)), bs)
      else (c, bs)
    else (c, b :: bs)

/-- Generic loop shape shared by the block / row / component levels of the
embedder: thread the remaining payload through the elements in order (the
source's `break` on payload exhaustion is observationally the same as
continuing with an empty payload, which touches nothing). -/
def embedThread (f : α → List Nat → α × List Nat) : List α → List Nat → List α × List Nat
  | [], bits => ([], bits)
  | x :: rest, bits =>
    let p := f x bits
    let q := embedThread f rest p.2
    (p.1 :: q.1, q.2)

/-- `for (let i = 1; i < 64 && ...; i++)` over one 8×8 block: the DC entry
(index 0) is untouched, indices 1..63 are visited. -/
def embedBlock (block : List Int) (bits : List Nat) : List Int × List Nat :=
  match block with
  | [] => ([], bits)
  | dc :: ac =>
    let p := embedThread embedCoeffStep (ac.take 63) bits
    (dc :: (p.1 ++ ac.drop 63), p.2)

/-- `if (!useChroma && component.id !== 1) continue;` then rows of blocks. -/
def embedComponent (useChroma : Bool) (comp : JPEGComponentCoefficients)
    (bits : List Nat) : JPEGComponentCoefficients × List Nat :=
  if useChroma = false ∧ comp.id ≠ 1 then (comp, bits)
  else
    let p := embedThread (embedThread embedBlock) comp.blocks bits
    (⟨comp.id, p.1⟩, p.2)

/-- `embedInCoefficients` mutates the coefficient set it is given in place
and throws at the end if payload bits remain unconsumed.  The model returns
(caller's structure after the call, thrown error or returned structure):
on the error path the first component is the already-mutated structure. -/
def embedInCoefficients (coeffs : JPEGQuantizedCoefficients)
    (messageBits : List Nat) (useChroma : Bool) :
    JPEGQuantizedCoefficients × Except String JPEGQuantizedCoefficients :=
  let p := embedThread (embedComponent useChroma) coeffs.components messageBits
  if p.2 ≠ [] then
    (⟨p.1⟩, .error ("Message too large. Capacity: " ++
      toString (messageBits.length - p.2.length) ++ " bits, Required: " ++
      toString messageBits.length ++ " bits"))
  else (⟨p.1⟩, .ok ⟨p.1⟩)

/-- Generic loop shape shared by the extraction levels: collect until `need`
bits are gathered. -/
def extractThread (g : α → Nat → List Nat) : List α → Nat → List Nat
  | [], _ => []
  | x :: rest, need =>
    let got := g x need
    got ++ extractThread g rest (need - got.length)

/-- `bits[bitIndex] = Math.abs(coeff) & 1` at a usable coefficient. -/
def extractCoeffOne (c : Int) (need : Nat) : List Nat :=
  if need ≠ 0 ∧ usableCoeff c then [c.natAbs &&& 1] else []

def extractBlock (block : List Int) (need : Nat) : List Nat :=
  match block with
  | [] => []
  | _ :: ac => extractThread extractCoeffOne (ac.take 63) need

def extractComponent (useChroma : Bool) (comp : JPEGComponentCoefficients)
    (need : Nat) : List Nat :=
  if useChroma = false ∧ comp.id ≠ 1 then []
  else extractThread (extractThread extractBlock) comp.blocks need

/-- `extractFromCoefficients` preallocates `bitCount` zero bits and fills as
many as there are usable coefficients. -/
def extractFromCoefficients (coeffs : JPEGQuantizedCoefficients)
    (bitCount : Nat) (useChroma : Bool) : List Nat :=
  let got := extractThread (extractComponent useChroma) coeffs.components bitCount
  got ++ List.replicate (bitCount - got.length) 0

/-- `calculateJpegCoefficientCapacity`: count coefficients at indices 1..63
that are not in {0, 1, -1} (same chroma filter), divide by 8. -/
def usableCountBlock (block : List Int) : Nat :=
  ((block.drop 1).take 63).countP fun c => usableCoeff c

def usableCountComponent (useChroma : Bool) (comp : JPEGComponentCoefficients) : Nat :=
  if useChroma = false ∧ comp.id ≠ 1 then 0
  else ((comp.blocks.map fun row => (row.map usableCountBlock).sum).sum)

def calculateJpegCoefficientCapacity (coeffs : JPEGQuantizedCoefficients)
    (useChroma : Bool) : Nat :=
  ((coeffs.components.map (usableCountComponent useChroma)).sum) / 8

/-! ### Proof-layer views of the coefficient traversal -/

/-- The magnitude LSB stream a coefficient contributes to extraction. -/
def lsbCoeff (c : Int) : List Nat := if usableCoeff c then [c.natAbs &&& 1] else []

def lsbsBlock (block : List Int) : List Nat :=
  (((block.drop 1).take 63).map lsbCoeff).flatten

def lsbsComponent (useChroma : Bool) (comp : JPEGComponentCoefficients) : List Nat :=
  if useChroma = false ∧ comp.id ≠ 1 then []
  else ((comp.blocks.map fun row => (row.map lsbsBlock).flatten).flatten)

def lsbsCoeffs (coeffs : JPEGQuantizedCoefficients) (useChroma : Bool) : List Nat :=
  (coeffs.components.map (lsbsComponent useChroma)).flatten

/-- Every coefficient of a component, in traversal order (DC included). -/
def flattenComponent (comp : JPEGComponentCoefficients) : List Int :=
  ((comp.blocks.map fun row => row.flatten).flatten)

def flattenCoeffs (coeffs : JPEGQuantizedCoefficients) : List Int :=
  (coeffs.components.map flattenComponent).flatten

/-- Usability is never destroyed by embedding (pointwise relation used for
the no-collapse clause). -/
def KeepsUsable (old new : Int) : Prop := usableCoeff old = true → usableCoeff new = true

/-! ## ZWCTextCodec -/

def ZWC_MAP : List Char := ['\u200B', '\u200C', '\u200D', '\uFEFF', '\u2060', '\u2061']

def startSentinel : List Char := ['\u200B', '\u200C', '\u200B']

def endSentinel : List Char := ['\u200C', '\u200B', '\u200C']

def isZWC (c : Char) : Bool := ZWC_MAP.contains c

/-- Four base-6 digits of a byte, most significant first (the source's loop
`digits.unshift(value % 6); value = Math.floor(value / 6)`, run 4 times,
unrolled). -/
def byteToDigits (value : Nat) : List Nat :=
  [value / 216 % 6, value / 36 % 6, value / 6 % 6, value % 6]

def zwcChar (d : Nat) : Char := ZWC_MAP.getD d '\u200B'

def bytesToZWC : List Nat → List Char
  | [] => []
  | b :: rest => (byteToDigits b).map zwcChar ++ bytesToZWC rest

/-- The reverse digit map: recognized zero-width characters to their index. -/
def zwcDigits (s : List Char) : List Nat :=
  s.filterMap fun c => if ZWC_MAP.contains c then some (ZWC_MAP.indexOf c) else none

/-- `digits[i]*216 + digits[i+1]*36 + digits[i+2]*6 + digits[i+3]`, pushed
into a `Uint8Array` (hence mod 256). -/
def digitGroupsToBytes : List Nat → List Nat
  | d0 :: d1 :: d2 :: d3 :: rest =>
    (d0 * 216 + d1 * 36 + d2 * 6 + d3) % 256 :: digitGroupsToBytes rest
  | _ => []

def zwcToBytes (s : List Char) : Except String (List Nat) :=
  if (zwcDigits s).length % 4 ≠ 0 then
    .error "Invalid ZWC data: length not divisible by 4"
  else .ok (digitGroupsToBytes (zwcDigits s))

/-- The regex strip `text.replace(/[zwc]+/g, "")` removes exactly the
zero-width characters. -/
def stripZWC (text : List Char) : List Char := text.filter fun c => !isZWC c

/-- `String.prototype.indexOf`: index of the first occurrence of `pat`. -/
def listIndexOf (pat : List Char) : List Char → Option Nat
  | [] => if pat.isPrefixOf ([] : List Char) then some 0 else none
  | c :: rest =>
    if pat.isPrefixOf (c :: rest) then some 0
    else (listIndexOf pat rest).map (· + 1)

/-- The external collaborators the text pipeline awaits: DEFLATE
(`CompressionStream`/`DecompressionStream`), AES-256-CTR with
PBKDF2-derived key (`crypto.subtle`, including its random salt/counter —
`encryptF`/`decryptF` model the whole `encrypt`/`decrypt` helpers), and the
platform `TextEncoder`/strict `TextDecoder`. -/
structure TextCodecExt where
  compressF : List Nat → List Nat
  decompressF : List Nat → Except String (List Nat)
  encryptF : List Char → List Nat → List Nat
  decryptF : List Char → List Nat → Except String (List Nat)
  utf8enc : List Char → List Nat
  utf8dec : List Nat → Except String (List Char)

/-- compress → encrypt if the password is truthy (non-empty) → prepend the
4-byte LE length of the processed data → base-6 ZWC → sentinels, appended
to the cover text. -/
def encodeText (ext : TextCodecExt) (coverText secretMessage : List Char)
    (password : List Char) : List Char :=
  let data0 := ext.compressF (ext.utf8enc secretMessage)
  let data := if password ≠ [] then ext.encryptF password data0 else data0
  coverText ++ startSentinel ++ bytesToZWC (u32le data.length ++ data) ++ endSentinel

/-- The tail of `decodeText`'s `try` block once the payload bytes are
recovered: decrypt when the password is truthy, decompress, decode UTF-8. -/
def decodePipelineTail (ext : TextCodecExt) (password : List Char) (data : List Nat) :
    Except String (List Char) :=
  match (if password ≠ [] then ext.decryptF password data else .ok data) with
  | .error e => .error e
  | .ok data2 =>
    match ext.decompressF data2 with
    | .error e => .error e
    | .ok data3 => ext.utf8dec data3

/-- Body of `decodeText`'s `try` block, after the 16-character check. -/
def decodeTextCore (ext : TextCodecExt) (allZWC : List Char)
    (password : List Char) : Except String (List Char) :=
  match zwcToBytes (allZWC.take 16) with
  | .error e => .error e
  | .ok lengthBytes =>
    let dataLength := u32leGet lengthBytes
    if allZWC.length < 16 + dataLength * 4 then
      .error "Incomplete data - payload appears truncated"
    else
      match zwcToBytes ((allZWC.take (16 + dataLength * 4)).drop 16) with
      | .error e => .error e
      | .ok data => decodePipelineTail ext password data

/-- Locate the first start sentinel (absence: no hidden data, visible text
stripped of stray ZWCs); collect every recognized zero-width character after
it; decode the 4-byte length from the first 16, then the payload; failures
inside the `try` are rethrown as `"Decoding failed: ..."`. -/
def decodeText (ext : TextCodecExt) (stegoText password : List Char) :
    Except String (List Char × Option (List Char)) :=
  match listIndexOf startSentinel stegoText with
  | none => .ok (stripZWC stegoText, none)
  | some startIdx =>
    let visibleText := stripZWC (stegoText.take startIdx)
    let allZWC := (stegoText.drop (startIdx + startSentinel.length)).filter isZWC
    if allZWC.length < 16 then .ok (visibleText, none)
    else
      match decodeTextCore ext allZWC password with
      | .error e => .error ("Decoding failed: " ++ e)
      | .ok secret => .ok (visibleText, some secret)

/-- Modelled from the spec: the published `encodeText` has a `distribute`
variant (the implementation is not under `src/`; only its caller is).  Spec
§4.8: it "spreads the zero-width payload through the cover text rather than
appending at the end — same digit/sentinel protocol, different insertion
positions", and sentinel scanning must not assume contiguity beyond the
sentinel markers.  A distributed stego text is therefore any text
`pre ++ startSentinel ++ mid` where `pre` is the part of the cover before
the start sentinel (free of zero-width characters for a clean cover) and
the zero-width characters of `mid`, in order, are exactly the zero-width
payload followed by the end sentinel — i.e. what `encodeText` with an empty
cover produces after its start sentinel. -/
def IsDistributedStego (ext : TextCodecExt) (pre mid secret password : List Char)
    (t : List Char) : Prop :=
  t = pre ++ startSentinel ++ mid ∧ (∀ c ∈ pre, isZWC c = false) ∧
  mid.filter isZWC = (encodeText ext [] secret password).drop 3

/-- A concrete instantiation of the external collaborators (identity
compression and encryption, code-point text transcoding), used to evaluate
the text pipeline on closed inputs. -/
def identityExt : TextCodecExt where
  compressF := fun x => x
  decompressF := fun x => .ok x
  encryptF := fun _ x => x
  decryptF := fun _ x => .ok x
  utf8enc := fun s => s.map Char.toNat
  utf8dec := fun l => .ok (l.map Char.ofNat)

/-- The processed payload bytes of `encodeText` before the length prefix:
compress, then encrypt when the password is truthy (non-empty). -/
def processedData (ext : TextCodecExt) (secretMessage password : List Char) : List Nat :=
  let data0 := ext.compressF (ext.utf8enc secretMessage)
  if password ≠ [] then ext.encryptF password data0 else data0


/-!
# Theorems
-/

/-! ## Arithmetic facts about the bit accumulator -/

theorem land_one_eq_mod (x : Nat) : x &&& 1 = x % 2 := Nat.and_one_is_mod x

theorem shiftLeft_one_eq (y : Nat) : y <<< 1 = 2 * y := by
  rw [Nat.shiftLeft_eq, Nat.pow_one, Nat.mul_comm]

theorem lor_of_lt_two (x y : Nat) (hx : x < 2) : x ||| (y <<< 1) = x + 2 * y := by
  interval_cases x
  · rw [Nat.zero_or, shiftLeft_one_eq]
    omega
  · rw [shiftLeft_one_eq]
    apply Nat.eq_of_testBit_eq
    intro i
    cases i with
    | zero =>
      rw [Nat.testBit_or]
      simp only [Nat.testBit_zero]
      have h1 : (1 + 2 * y) % 2 = 1 := by omega
      have h2 : (2 * y) % 2 = 0 := by omega
      simp [h1, h2]
    | succ j =>
      rw [Nat.testBit_or, Nat.testBit_succ, Nat.testBit_succ, Nat.testBit_succ]
      rw [show (1:Nat) / 2 = 0 by norm_num, show (2 * y) / 2 = y by omega,
        show (1 + 2 * y) / 2 = y by omega]
      simp [Nat.zero_testBit]

theorem chunkVal_cons (b : Nat) (t : List Nat) :
    chunkVal (b :: t) = b % 2 + 2 * chunkVal t := by
  rw [chunkVal, lor_of_lt_two (b &&& 1) (chunkVal t)
    (by rw [land_one_eq_mod]; omega), land_one_eq_mod]

theorem chunkVal_lt (l : List Nat) : chunkVal l < 2 ^ l.length := by
  induction l with
  | nil => simp [chunkVal]
  | cons b t ih =>
    rw [chunkVal_cons, List.length_cons, Nat.pow_succ]
    omega

/-- A byte decomposed into its 8 low bits is recovered by `chunkVal`. -/
theorem chunkVal_bits (n : Nat) (x : Nat) :
    chunkVal ((List.range n).map fun j => (x >>> j) &&& 1) = x % 2 ^ n := by
  induction n generalizing x with
  | zero => simp [chunkVal, Nat.mod_one]
  | succ k ih =>
    rw [List.range_succ_eq_map, List.map_cons, List.map_map]
    have hcomp : ((fun j => (x >>> j) &&& 1) ∘ Nat.succ) =
        fun j => ((x >>> 1) >>> j) &&& 1 := by
      funext j
      rw [Function.comp_apply, show Nat.succ j = 1 + j by omega, Nat.shiftRight_add]
    rw [hcomp, chunkVal_cons, ih (x >>> 1)]
    have hx : x >>> 0 = x := rfl
    have hx1 : x >>> 1 = x / 2 := Nat.shiftRight_one x
    rw [hx, hx1, land_one_eq_mod]
    have h2 : (2:Nat) ^ (k + 1) = 2 * 2 ^ k := by ring
    rw [h2, Nat.mod_mul]
    omega

theorem bitsToBytes_nil_of_short (l : List Nat) (h : l.length < 8) :
    bitsToBytes l = [] := by
  unfold bitsToBytes
  rw [Nat.div_eq_of_lt h]
  simp

theorem bitsToBytes_cons8 (g tail : List Nat) (hg : g.length = 8) :
    bitsToBytes (g ++ tail) = chunkVal g :: bitsToBytes tail := by
  unfold bitsToBytes
  rw [List.length_append, hg]
  rw [show (8 + tail.length) / 8 = tail.length / 8 + 1 by omega]
  rw [List.range_succ_eq_map, List.map_cons]
  congr 1
  · rw [Nat.mul_zero, List.drop_zero, List.take_append_of_le_length (by omega)]
    rw [← hg, List.take_length]
  · rw [List.map_map]
    apply List.map_congr_left
    intro i _
    simp only [Function.comp_apply]
    have hdrop : List.drop (8 * (i + 1)) (g ++ tail) = List.drop (8 * i) tail := by
      rw [show 8 * (i + 1) = g.length + 8 * i by rw [hg]; ring]
      exact List.drop_append (8 * i)
    rw [hdrop]

/-- Round trip of the bit stream, with the trailing-group clause: an
incomplete trailing group is discarded, not an error. -/
theorem bitsToBytes_bytesToBits (b extra : List Nat)
    (hb : ∀ x ∈ b, x < 256) (hextra : extra.length < 8) :
    bitsToBytes (bytesToBits b ++ extra) = b := by
  induction b with
  | nil => exact bitsToBytes_nil_of_short extra hextra
  | cons x rest ih =>
    rw [bytesToBits, List.append_assoc,
      bitsToBytes_cons8 _ _ (by simp), chunkVal_bits,
      show (2:Nat) ^ 8 = 256 by norm_num,
      Nat.mod_eq_of_lt (hb x (by simp)), ih (fun y hy => hb y (by simp [hy]))]

/-! ## Bit-level facts for the embedded pixel byte -/

theorem bitget_eq_testBit (x j : Nat) : (x >>> j) &&& 1 = (x.testBit j).toNat := by
  rw [land_one_eq_mod, Nat.shiftRight_eq_div_pow, Nat.testBit_to_div_mod]
  by_cases h : x / 2 ^ j % 2 = 1
  · simp [h]
  · simp [h]
    omega

theorem chunkVal_testBit (c : List Nat) (j : Nat) :
    (chunkVal c).testBit j = (decide (j < c.length) && (c.getD j 0).testBit 0) := by
  induction c generalizing j with
  | nil => simp [chunkVal]
  | cons b t ih =>
    rw [chunkVal_cons]
    cases j with
    | zero =>
      rw [Nat.testBit_zero, Nat.testBit_zero]
      simp only [List.getD_cons_zero, List.length_cons]
      have : (b % 2 + 2 * chunkVal t) % 2 = b % 2 := by omega
      simp [this]
    | succ j =>
      rw [Nat.testBit_succ, show (b % 2 + 2 * chunkVal t) / 2 = chunkVal t by omega, ih]
      simp

/-- The low bits of the byte produced by the embed store are the payload
chunk's bits, for positions inside the chunk. -/
theorem embedded_byte_bits (b : Nat) (c : List Nat) (d j : Nat)
    (hcd : c.length ≤ d) (hd : d ≤ 8) (hj : j < c.length) :
    ((((b &&& (0xFF <<< d)) ||| chunkVal c) % 256) >>> j) &&& 1 = c.getD j 0 &&& 1 := by
  rw [bitget_eq_testBit, land_one_eq_mod]
  rw [show (256 : Nat) = 2 ^ 8 by norm_num]
  rw [Nat.testBit_mod_two_pow, Nat.testBit_or, Nat.testBit_and, Nat.testBit_shiftLeft,
    chunkVal_testBit]
  have h1 : decide (j < 8) = true := by simp; omega
  have h2 : decide (j ≥ d) = false := by simp; omega
  have h3 : decide (j < c.length) = true := by simp [hj]
  rw [h1, h2, h3]
  simp only [Bool.false_and, Bool.and_false, Bool.false_or, Bool.true_and]
  rw [Nat.testBit_zero]
  rcases Nat.mod_two_eq_zero_or_one (c.getD j 0) with h | h <;> rw [h] <;> simp

/-! ## Structure of `embedGo` / `extractGo` -/

theorem embedGo_nil_bits (d i : Nat) (data : List Nat) : embedGo d i data [] = data := by
  cases data <;> rfl

theorem embedGo_nil_data (d i : Nat) (bits : List Nat) : embedGo d i [] bits = [] := by
  cases bits <;> rfl

theorem extractGo_zero (d i : Nat) (data : List Nat) : extractGo d i data 0 = [] := by
  cases data <;> rfl

theorem embedGo_length (d : Nat) : ∀ (data : List Nat) (i : Nat) (bits : List Nat),
    (embedGo d i data bits).length = data.length
  | [], i, bits => by rw [embedGo_nil_data]
  | ds, i, [] => by rw [embedGo_nil_bits]
  | b :: rest, i, x :: bs => by
    rw [embedGo]
    by_cases h : i % 4 = 3
    · rw [if_pos h]
      simp only [List.length_cons]
      rw [embedGo_length d rest (i + 1) (x :: bs)]
    · rw [if_neg h]
      simp only [List.length_cons]
      rw [embedGo_length d rest (i + 1) ((x :: bs).drop d)]

theorem embedGo_alpha (d : Nat) : ∀ (data : List Nat) (i : Nat) (bits : List Nat) (j : Nat),
    (i + j) % 4 = 3 → (embedGo d i data bits).getD j 0 = data.getD j 0
  | [], i, bits, _, _ => by rw [embedGo_nil_data]
  | ds, i, [], j, _ => by rw [embedGo_nil_bits]
  | b :: rest, i, x :: bs, 0, hj => by
    rw [embedGo]
    have h3 : i % 4 = 3 := by omega
    rw [if_pos h3]
    simp only [List.getD_cons_zero]
  | b :: rest, i, x :: bs, j + 1, hj => by
    rw [embedGo]
    by_cases h : i % 4 = 3
    · rw [if_pos h]
      simp only [List.getD_cons_succ]
      exact embedGo_alpha d rest (i + 1) (x :: bs) j (by omega)
    · rw [if_neg h]
      simp only [List.getD_cons_succ]
      exact embedGo_alpha d rest (i + 1) ((x :: bs).drop d) j (by omega)

/-- Round trip of the two pixel loops: extracting `bits.length` bits from the
embedded buffer recovers the payload (masked to single bits), provided the
payload fits in the non-alpha positions. -/
theorem extractGo_embedGo (d : Nat) (hd1 : 1 ≤ d) (hd : d ≤ 8) :
    ∀ (data : List Nat) (i : Nat) (bits : List Nat),
      bits.length ≤ d * nonAlphaCount i data →
      extractGo d i (embedGo d i data bits) bits.length = bits.map (· &&& 1)
  | [], i, bits, hcap => by
    have hb : bits = [] := by
      rcases bits with _ | ⟨x, bs⟩
      · rfl
      · exfalso
        simp [nonAlphaCount] at hcap
    subst hb
    rw [embedGo_nil_data]
    simp only [List.length_nil]
    rw [extractGo_zero]
    rfl
  | ds, i, [], hcap => by
    rw [embedGo_nil_bits]
    simp only [List.length_nil]
    rw [extractGo_zero]
    rfl
  | b :: rest, i, x :: bs, hcap => by
    rw [embedGo]
    by_cases h3 : i % 4 = 3
    · rw [if_pos h3]
      have hxbs : (x :: bs).length = bs.length + 1 := rfl
      rw [hxbs, extractGo, if_pos h3, ← hxbs]
      have hcap' : (x :: bs).length ≤ d * nonAlphaCount (i + 1) rest := by
        have h0 : nonAlphaCount i (b :: rest) = nonAlphaCount (i + 1) rest := by
          rw [nonAlphaCount, if_pos h3]
          omega
        rw [h0] at hcap
        exact hcap
      exact extractGo_embedGo d hd1 hd rest (i + 1) (x :: bs) hcap'
    · rw [if_neg h3]
      have hxbs : (x :: bs).length = bs.length + 1 := rfl
      rw [hxbs, extractGo, if_neg h3]
      have hklen : min d (bs.length + 1) = ((x :: bs).take d).length := by
        simp [Nat.min_comm]
      -- first segment: the bits re-read from the freshly written byte
      have hseg : ((List.range (min d (bs.length + 1))).map fun j =>
            ((((b &&& (0xFF <<< d)) ||| chunkVal ((x :: bs).take d)) % 256) >>> j) &&& 1)
          = ((x :: bs).take d).map (· &&& 1) := by
        apply List.ext_getElem
        · simp [Nat.min_comm]
        · intro j hj1 hj2
          simp only [List.getElem_map, List.getElem_range]
          rw [embedded_byte_bits b ((x :: bs).take d) d j (by simp) hd
            (by simpa using hj2)]
          rw [List.getD_eq_getElem _ _ (by simpa using hj2)]
      rw [hseg]
      -- second segment: induction on the remaining buffer
      have hdrop : (bs.length + 1) - min d (bs.length + 1) = ((x :: bs).drop d).length := by
        simp
        omega
      have hcap' : ((x :: bs).drop d).length ≤ d * nonAlphaCount (i + 1) rest := by
        rw [nonAlphaCount, if_neg h3, Nat.mul_add, Nat.mul_one] at hcap
        simp only [List.length_drop, List.length_cons]
        simp only [List.length_cons] at hcap
        omega
      rw [hdrop, extractGo_embedGo d hd1 hd rest (i + 1) ((x :: bs).drop d) hcap']
      rw [← List.map_append, List.take_append_drop]

/-- `nonAlphaCount` depends only on the starting index mod 4. -/
theorem nonAlphaCount_congr : ∀ (data : List Nat) (i i' : Nat),
    i % 4 = i' % 4 → nonAlphaCount i data = nonAlphaCount i' data
  | [], _, _, _ => rfl
  | b :: rest, i, i', h => by
    rw [nonAlphaCount, nonAlphaCount, h,
      nonAlphaCount_congr rest (i + 1) (i' + 1) (by omega)]

/-- A buffer of valid RGBA length has exactly three non-alpha bytes per pixel. -/
theorem nonAlphaCount_len4 : ∀ (data : List Nat), data.length % 4 = 0 →
    nonAlphaCount 0 data = 3 * (data.length / 4)
  | [], _ => rfl
  | [a], h => by simp at h
  | [a, b], h => by simp at h
  | [a, b, c], h => by simp at h
  | a :: b :: c :: e :: rest, h => by
    have hr : rest.length % 4 = 0 := by
      simp only [List.length_cons] at h
      omega
    simp only [nonAlphaCount, List.length_cons]
    rw [nonAlphaCount_congr rest 4 0 (by norm_num)]
    rw [nonAlphaCount_len4 rest hr]
    norm_num
    omega

/-! ## Claim C9 -/

/-- **C9**: for every byte sequence `b`, `bitsToBytes (bytesToBits b) = b`;
`bytesToBits` emits 8 bits per byte LSB-first and `bitsToBytes` groups bits
into bytes of 8, discarding any incomplete trailing group without error
(stated by allowing an arbitrary short trailing group `extra`). -/
theorem C9_bitstream_roundTrip (b extra : List Nat)
    (hb : ∀ x ∈ b, x < 256) (hextra : extra.length < 8) :
    bitsToBytes (bytesToBits b ++ extra) = b :=
  bitsToBytes_bytesToBits b extra hb hextra

theorem C9_witness :
    (∀ x ∈ [7, 200, 0, 255], x < 256) ∧ ([1, 1] : List Nat).length < 8 ∧
      bitsToBytes (bytesToBits [7, 200, 0, 255] ++ [1, 1]) = [7, 200, 0, 255] :=
  ⟨by decide, by decide, C9_bitstream_roundTrip [7, 200, 0, 255] [1, 1] (by decide) (by decide)⟩

/-! ## Claim C1 -/

/-- **C1**: for every RGBA pixel buffer of valid length, every bit depth in
{1,2,3,4}, and every payload of single bits whose length is at most the
computed capacity, extracting with the same bit count and depth from the
buffer returned by `embedLSB` yields exactly the embedded bits, and every
alpha byte (index % 4 == 3) of the embedded buffer is bit-identical to the
corresponding byte of the input (and the input buffer itself is returned to
the caller unchanged). -/
theorem C1_lsb_roundTrip (p mbits : List Nat) (d : Nat)
    (hd1 : 1 ≤ d) (hd4 : d ≤ 4) (hlen : p.length % 4 = 0)
    (hbits : ∀ x ∈ mbits, x < 2)
    (hcap : mbits.length ≤ lsbMaxBits p.length d) :
    ∃ out, embedLSB p mbits d = (p, .ok out) ∧
      extractLSB out mbits.length d = .ok mbits ∧
      out.length = p.length ∧
      ∀ i, i % 4 = 3 → out.getD i 0 = p.getD i 0 := by
  have hcap' : mbits.length ≤ d * nonAlphaCount 0 p := by
    have h1 : nonAlphaCount 0 p = 3 * (p.length / 4) := nonAlphaCount_len4 p hlen
    have h2 : lsbMaxBits p.length d = d * (3 * (p.length / 4)) := by
      unfold lsbMaxBits
      have : p.length * 3 / 4 = 3 * (p.length / 4) := by omega
      rw [this]
      ring
    rw [h1]
    rw [h2] at hcap
    exact hcap
  have hrt : extractGo d 0 (embedGo d 0 p mbits) mbits.length = mbits.map (· &&& 1) :=
    extractGo_embedGo d hd1 (by omega) p 0 mbits hcap'
  have hmap : mbits.map (· &&& 1) = mbits := by
    have : mbits.map (· &&& 1) = mbits.map id := by
      apply List.map_congr_left
      intro x hx
      rw [land_one_eq_mod]
      exact Nat.mod_eq_of_lt (hbits x hx)
    rw [this, List.map_id]
  have hlen' : (embedGo d 0 p mbits).length = p.length := embedGo_length d p 0 mbits
  refine ⟨embedGo d 0 p mbits, ?_, ?_, hlen', ?_⟩
  · unfold embedLSB
    rw [if_neg (by omega), if_neg (by omega)]
  · unfold extractLSB
    rw [if_neg (by omega), hlen']
    rw [Nat.min_eq_left hcap, hrt, hmap]
    simp
  · intro i hi
    exact embedGo_alpha d p 0 mbits i (by simpa using hi)

theorem C1_witness :
    ([1, 0, 1, 1, 0, 1] : List Nat).length ≤ lsbMaxBits 8 1 ∧
      ∃ out, embedLSB [10, 20, 30, 40, 50, 60, 70, 80] [1, 0, 1, 1, 0, 1] 1 =
          ([10, 20, 30, 40, 50, 60, 70, 80], .ok out) ∧
        extractLSB out 6 1 = .ok [1, 0, 1, 1, 0, 1] ∧
        out.length = 8 ∧ ∀ i, i % 4 = 3 →
          out.getD i 0 = ([10, 20, 30, 40, 50, 60, 70, 80] : List Nat).getD i 0 :=
  ⟨by decide, C1_lsb_roundTrip [10, 20, 30, 40, 50, 60, 70, 80] [1, 0, 1, 1, 0, 1] 1
    (by decide) (by decide) (by decide) (by decide) (by decide)⟩

/-! ## Claim C6 -/

/-- **C6** (amended): `embedLSB` and `extractLSB` fail with an error for every
bit depth outside [1,4], but `calculateBitCapacity` performs no bit-depth
validation at all: whenever the dimensions pass validation it accepts any
bit depth and returns `floor(w*h*3*d/8)` computed with it. -/
theorem C6_bitDepth_validation (p m : List Nat) (n d w h : Nat)
    (hd : d < 1 ∨ d > 4) :
    (embedLSB p m d).2 = .error "Bit depth must be between 1 and 4" ∧
    extractLSB p n d = .error "Bit depth must be between 1 and 4" ∧
    (validateImageDimensions w h = .ok () →
      calculateBitCapacity w h d = .ok (w * h * 3 * d / 8)) := by
  refine ⟨?_, ?_, ?_⟩
  · unfold embedLSB
    rw [if_pos hd]
  · unfold extractLSB
    rw [if_pos hd]
  · intro hv
    unfold calculateBitCapacity
    rw [hv]

theorem C6_witness :
    ((5 : Nat) < 1 ∨ (5 : Nat) > 4) ∧
      ((embedLSB [0, 0, 0, 255] [] 5).2 = .error "Bit depth must be between 1 and 4" ∧
       extractLSB [0, 0, 0, 255] 0 5 = .error "Bit depth must be between 1 and 4" ∧
       (validateImageDimensions 10 10 = .ok () →
         calculateBitCapacity 10 10 5 = .ok (10 * 10 * 3 * 5 / 8))) :=
  ⟨by decide, C6_bitDepth_validation [0, 0, 0, 255] [] 0 5 10 10 (by decide)⟩

/-- **C6 counterexample**: the claim as stated is false — for the
out-of-range bit depth 5, `calculateBitCapacity` does not fail; it silently
accepts the value and returns a capacity computed with it. -/
theorem C6_counterexample :
    calculateBitCapacity 10 10 5 = .ok 187 ∧ ((5 : Nat) < 1 ∨ (5 : Nat) > 4) := by
  constructor
  · rfl
  · decide

/-! ## Claim C10 -/

set_option maxRecDepth 8192 in
/-- **C10**: `embedLSB` never writes to its input pixel buffer: whether the
call succeeds or throws, the caller's `imageData` array is returned
unchanged (the function copies the buffer and mutates only the copy) — in
contrast to the JPEG coefficient embedder, which mutates its argument in
place (witnessed here on a concrete coefficient set). -/
theorem C10_embedLSB_no_mutation :
    (∀ (p m : List Nat) (d : Nat), (embedLSB p m d).1 = p) ∧
    (embedInCoefficients ⟨[⟨1, [[(0 : Int) :: 2 :: List.replicate 62 0]]⟩]⟩ [1, 1] true).1 ≠
      ⟨[⟨1, [[(0 : Int) :: 2 :: List.replicate 62 0]]⟩]⟩ := by
  constructor
  · intro p m d
    unfold embedLSB
    split
    · rfl
    · split <;> rfl
  · decide

/-! ## JPEG coefficient codec: bit-twiddling facts -/

theorem lor_one_eq (n : Nat) : n ||| 1 = 2 * (n / 2) + 1 := by
  apply Nat.eq_of_testBit_eq
  intro i
  cases i with
  | zero =>
    rw [Nat.testBit_or]
    simp only [Nat.testBit_zero]
    have h1 : (2 * (n / 2) + 1) % 2 = 1 := by omega
    simp [h1]
  | succ j =>
    rw [Nat.testBit_or, Nat.testBit_succ, Nat.testBit_succ, Nat.testBit_succ,
      show (1 : Nat) / 2 = 0 by norm_num,
      show (2 * (n / 2) + 1) / 2 = n / 2 by omega]
    simp [Nat.zero_testBit]

theorem land_fffe_eq (n : Nat) (h : n < 2 ^ 32) : n &&& 0xFFFFFFFE = 2 * (n / 2) := by
  apply Nat.eq_of_testBit_eq
  intro i
  rw [Nat.testBit_and]
  cases i with
  | zero =>
    simp only [Nat.testBit_zero]
    have e1 : (0xFFFFFFFE : Nat) % 2 = 0 := by norm_num
    have e2 : (2 * (n / 2)) % 2 = 0 := by omega
    simp [e1, e2]
  | succ j =>
    rw [Nat.testBit_succ, Nat.testBit_succ, Nat.testBit_succ,
      show (0xFFFFFFFE : Nat) / 2 = 2 ^ 31 - 1 by norm_num,
      show (2 * (n / 2)) / 2 = n / 2 by omega,
      Nat.testBit_two_pow_sub_one]
    by_cases hj : j < 31
    · simp [hj]
    · have h1 : (n / 2).testBit j = false := by
        apply Nat.testBit_lt_two_pow
        calc n / 2 < 2 ^ 31 := by omega
        _ ≤ 2 ^ j := Nat.pow_le_pow_right (by norm_num) (by omega)
      simp [hj, h1]

theorem int32wrap_eq_self (v : Int) (h1 : -(2 ^ 31) ≤ v) (h2 : v < 2 ^ 31) :
    int32wrap v = v := by
  unfold int32wrap
  have e31 : (2 : Int) ^ 31 = 2147483648 := by norm_num
  have e32 : (2 : Int) ^ 32 = 4294967296 := by norm_num
  rw [e31, e32] at *
  rw [Int.emod_eq_of_lt (by omega) (by omega)]
  omega

/-! ## Per-coefficient behaviour of the embedder -/

theorem embedCoeffStep_nil (c : Int) : embedCoeffStep c [] = (c, []) := rfl

theorem embedCoeffStep_not_usable (c : Int) (bits : List Nat)
    (h : usableCoeff c = false) : embedCoeffStep c bits = (c, bits) := by
  cases bits with
  | nil => rfl
  | cons b bs =>
    rw [embedCoeffStep, if_neg (by simp [h])]

theorem embedCoeffStep_usable (c : Int) (b : Nat) (bs : List Nat)
    (hc32 : IsInt32 c) (h : usableCoeff c = true) :
    (embedCoeffStep c (b :: bs)).2 = bs ∧
    usableCoeff (embedCoeffStep c (b :: bs)).1 = true ∧
    (embedCoeffStep c (b :: bs)).1.natAbs &&& 1 = b &&& 1 := by
  obtain ⟨hlo, hhi⟩ := hc32
  have e31 : (2 : Int) ^ 31 = 2147483648 := by norm_num
  rw [e31] at hlo hhi
  have hne : c ≠ 0 ∧ c ≠ 1 ∧ c ≠ -1 := by
    simpa [usableCoeff, and_assoc] using h
  rw [embedCoeffStep, if_pos h]
  by_cases hparity : c.natAbs &&& 1 ≠ b &&& 1
  case neg =>
    rw [if_neg hparity]
    refine ⟨rfl, h, ?_⟩
    show c.natAbs &&& 1 = b &&& 1
    simp only [not_not] at hparity
    exact hparity
  case pos =>
  rw [if_pos hparity]
  have hb2 : b &&& 1 = b % 2 := land_one_eq_mod b
  by_cases hpos : c > 0
  · rw [if_pos hpos]
    have ht2 : 2 ≤ c.toNat := by omega
    have ht31 : c.toNat < 2147483648 := by omega
    by_cases hb : b &&& 1 = 1
    · rw [if_pos hb, lor_one_eq]
      have hwrap : int32wrap ((2 * (c.toNat / 2) + 1 : Nat) : Int) =
          ((2 * (c.toNat / 2) + 1 : Nat) : Int) := by
        apply int32wrap_eq_self
        · exact le_trans (by norm_num) (Int.natCast_nonneg _)
        · rw [e31]
          exact_mod_cast (by omega : 2 * (c.toNat / 2) + 1 < 2147483648)
      rw [hwrap, if_neg (by omega)]
      refine ⟨rfl, ?_, ?_⟩
      · simp only [usableCoeff, Bool.and_eq_true, bne_iff_ne]
        refine ⟨⟨?_, ?_⟩, ?_⟩ <;> omega
      · rw [land_one_eq_mod, land_one_eq_mod]
        omega
    · rw [if_neg hb, land_fffe_eq _ (by omega)]
      have hwrap : int32wrap ((2 * (c.toNat / 2) : Nat) : Int) =
          ((2 * (c.toNat / 2) : Nat) : Int) := by
        apply int32wrap_eq_self
        · exact le_trans (by norm_num) (Int.natCast_nonneg _)
        · rw [e31]
          exact_mod_cast (by omega : 2 * (c.toNat / 2) < 2147483648)
      rw [hwrap, if_neg (by omega)]
      refine ⟨rfl, ?_, ?_⟩
      · simp only [usableCoeff, Bool.and_eq_true, bne_iff_ne]
        refine ⟨⟨?_, ?_⟩, ?_⟩ <;> omega
      · rw [land_one_eq_mod, land_one_eq_mod]
        omega
  · rw [if_neg hpos]
    have hc2 : c ≤ -2 := by omega
    have ht2 : 2 ≤ (-c).toNat := by omega
    have ht31 : (-c).toNat ≤ 2147483648 := by omega
    by_cases hb : b &&& 1 = 1
    · rw [if_pos hb, lor_one_eq]
      rw [if_neg (by omega)]
      by_cases hbig : 2 * ((-c).toNat / 2) + 1 ≤ 2147483647
      · have hwrap : int32wrap (-((2 * ((-c).toNat / 2) + 1 : Nat) : Int)) =
            -((2 * ((-c).toNat / 2) + 1 : Nat) : Int) := by
          apply int32wrap_eq_self
          · rw [e31]
            have : ((2 * ((-c).toNat / 2) + 1 : Nat) : Int) ≤ 2147483648 := by
              exact_mod_cast (by omega : 2 * ((-c).toNat / 2) + 1 ≤ 2147483648)
            omega
          · rw [e31]
            have : (0 : Int) ≤ ((2 * ((-c).toNat / 2) + 1 : Nat) : Int) :=
              Int.natCast_nonneg _
            omega
        rw [hwrap]
        refine ⟨rfl, ?_, ?_⟩
        · simp only [usableCoeff, Bool.and_eq_true, bne_iff_ne]
          refine ⟨⟨?_, ?_⟩, ?_⟩ <;> omega
        · rw [land_one_eq_mod, land_one_eq_mod]
          omega
      · have hN : 2 * ((-c).toNat / 2) + 1 = 2147483649 := by omega
        rw [hN]
        have hw : int32wrap (-((2147483649 : Nat) : Int)) = (2147483647 : Int) := by
          unfold int32wrap
          decide
        rw [hw]
        refine ⟨rfl, by simp [usableCoeff], ?_⟩
        rw [land_one_eq_mod, land_one_eq_mod]
        norm_num
        omega
    · rw [if_neg hb, land_fffe_eq _ (by omega)]
      rw [if_neg (by omega)]
      have hwrap : int32wrap (-((2 * ((-c).toNat / 2) : Nat) : Int)) =
          -((2 * ((-c).toNat / 2) : Nat) : Int) := by
        apply int32wrap_eq_self
        · rw [e31]
          have : ((2 * ((-c).toNat / 2) : Nat) : Int) ≤ 2147483648 := by
            exact_mod_cast (by omega : 2 * ((-c).toNat / 2) ≤ 2147483648)
          omega
        · rw [e31]
          have h0 : (0 : Int) ≤ ((2 * ((-c).toNat / 2) : Nat) : Int) :=
            Int.natCast_nonneg _
          omega
      rw [hwrap]
      refine ⟨rfl, ?_, ?_⟩
      · simp only [usableCoeff, Bool.and_eq_true, bne_iff_ne]
        refine ⟨⟨?_, ?_⟩, ?_⟩ <;> omega
      · rw [land_one_eq_mod, land_one_eq_mod]
        omega

/-! ## The coefficient-level contract in lsb-stream form -/

theorem lsbCoeff_embedCoeffStep (c : Int) (bits : List Nat) (hc : IsInt32 c) :
    lsbCoeff (embedCoeffStep c bits).1
        = (bits.take (min bits.length (lsbCoeff c).length)).map (· &&& 1)
          ++ (lsbCoeff c).drop (min bits.length (lsbCoeff c).length) ∧
    (embedCoeffStep c bits).2 = bits.drop (min bits.length (lsbCoeff c).length) := by
  by_cases hu : usableCoeff c = true
  · cases bits with
    | nil =>
      rw [embedCoeffStep_nil]
      simp
    | cons b bs =>
      obtain ⟨h1, h2, h3⟩ := embedCoeffStep_usable c b bs hc hu
      have hlen : (lsbCoeff c).length = 1 := by simp [lsbCoeff, hu]
      rw [hlen]
      have hmin : min (b :: bs).length 1 = 1 := by simp
      rw [hmin]
      constructor
      · have hl : lsbCoeff (embedCoeffStep c (b :: bs)).1 =
            [(embedCoeffStep c (b :: bs)).1.natAbs &&& 1] := by
          simp [lsbCoeff, h2]
        rw [hl, h3]
        simp [lsbCoeff, hu]
      · rw [h1]
        rfl
  · have hu' : usableCoeff c = false := by simpa using hu
    rw [embedCoeffStep_not_usable c bits hu']
    simp [lsbCoeff, hu']

theorem embedCoeffStep_keeps (c : Int) (bits : List Nat) (hc : IsInt32 c) :
    KeepsUsable c (embedCoeffStep c bits).1 := by
  intro hu
  cases bits with
  | nil =>
    rw [embedCoeffStep_nil]
    exact hu
  | cons b bs => exact (embedCoeffStep_usable c b bs hc hu).2.1

theorem extractCoeffOne_take (c : Int) (need : Nat) :
    extractCoeffOne c need = (lsbCoeff c).take need := by
  cases need with
  | zero => simp [extractCoeffOne]
  | succ n =>
    by_cases hu : usableCoeff c = true
    · simp [extractCoeffOne, lsbCoeff, hu]
    · simp [extractCoeffOne, lsbCoeff, hu]

/-! ## Generic facts about the threaded loops -/

theorem embedThread_cons {α : Type} (f : α → List Nat → α × List Nat)
    (x : α) (rest : List α) (bits : List Nat) :
    embedThread f (x :: rest) bits =
      ((f x bits).1 :: (embedThread f rest (f x bits).2).1,
       (embedThread f rest (f x bits).2).2) := rfl

theorem extractThread_cons {α : Type} (g : α → Nat → List Nat)
    (x : α) (rest : List α) (need : Nat) :
    extractThread g (x :: rest) need =
      g x need ++ extractThread g rest (need - (g x need).length) := rfl

theorem embedThread_length {α : Type} (f : α → List Nat → α × List Nat) :
    ∀ (l : List α) (bits : List Nat), ((embedThread f l bits).1).length = l.length
  | [], _ => rfl
  | x :: rest, bits => by
    rw [embedThread_cons]
    simp only [List.length_cons]
    rw [embedThread_length f rest]

/-- One level of the embed traversal, generically: if each element satisfies
the lsb-stream contract, so does the element list with the payload threaded
through it. -/
theorem embedThread_spec {α : Type} (f : α → List Nat → α × List Nat)
    (lsbF : α → List Nat) (Q : α → Prop)
    (hstep : ∀ x bits, Q x →
      lsbF (f x bits).1 = (bits.take (min bits.length (lsbF x).length)).map (· &&& 1)
        ++ (lsbF x).drop (min bits.length (lsbF x).length) ∧
      (f x bits).2 = bits.drop (min bits.length (lsbF x).length)) :
    ∀ (l : List α) (bits : List Nat), (∀ x ∈ l, Q x) →
      ((embedThread f l bits).1.map lsbF).flatten
          = (bits.take (min bits.length ((l.map lsbF).flatten).length)).map (· &&& 1)
            ++ ((l.map lsbF).flatten).drop (min bits.length ((l.map lsbF).flatten).length) ∧
      (embedThread f l bits).2
          = bits.drop (min bits.length ((l.map lsbF).flatten).length)
  | [], bits, _ => by
    constructor
    · simp [embedThread]
    · simp [embedThread]
  | x :: rest, bits, hQ => by
    obtain ⟨hx1, hx2⟩ := hstep x bits (hQ x (by simp))
    obtain ⟨ih1, ih2⟩ := embedThread_spec f lsbF Q hstep rest ((f x bits).2)
      (fun y hy => hQ y (by simp [hy]))
    rw [hx2] at ih1 ih2
    rw [embedThread_cons]
    simp only [List.map_cons, List.flatten_cons, List.length_append]
    rw [hx1, hx2, ih1, ih2]
    simp only [List.length_drop]
    by_cases hcase : bits.length ≤ (lsbF x).length
    · have e1 : min bits.length (lsbF x).length = bits.length := by omega
      have e3 : min bits.length ((lsbF x).length + ((rest.map lsbF).flatten).length)
          = bits.length := by omega
      rw [e1, e3]
      have hz : bits.length - bits.length = 0 := by omega
      constructor
      · rw [List.drop_append_of_le_length hcase]
        simp [hz, List.append_assoc]
      · simp [hz]
    · have e1 : min bits.length (lsbF x).length = (lsbF x).length := by omega
      have e3 : min bits.length ((lsbF x).length + ((rest.map lsbF).flatten).length)
          = (lsbF x).length +
            min (bits.length - (lsbF x).length) ((rest.map lsbF).flatten).length := by
        omega
      rw [e1, e3]
      constructor
      · rw [List.drop_length, List.take_add, List.map_append, List.drop_append]
        simp [List.append_assoc]
      · rw [List.drop_drop]

/-- One level of the extract traversal, generically. -/
theorem extractThread_spec {α : Type} (g : α → Nat → List Nat) (lsbF : α → List Nat)
    (hstep : ∀ x need, g x need = (lsbF x).take need) :
    ∀ (l : List α) (need : Nat),
      extractThread g l need = ((l.map lsbF).flatten).take need
  | [], need => by simp [extractThread]
  | x :: rest, need => by
    rw [extractThread_cons, hstep x need, extractThread_spec g lsbF hstep rest _]
    simp only [List.map_cons, List.flatten_cons]
    rw [List.take_append_eq_append_take]
    congr 1
    rw [List.length_take]
    congr 1
    omega

/-- One level of the embed traversal preserves any per-element relation
implied by the step function. -/
theorem embedThread_rel {α : Type} (R : α → α → Prop) (f : α → List Nat → α × List Nat)
    (Q : α → Prop) (hstep : ∀ x bits, Q x → R x (f x bits).1) :
    ∀ (l : List α) (bits : List Nat), (∀ x ∈ l, Q x) →
      List.Forall₂ R l (embedThread f l bits).1
  | [], _, _ => List.Forall₂.nil
  | x :: rest, bits, hQ => by
    rw [embedThread_cons]
    exact List.Forall₂.cons (hstep x bits (hQ x (by simp)))
      (embedThread_rel R f Q hstep rest _ (fun y hy => hQ y (by simp [hy])))

theorem forall₂_keeps_self : ∀ (l : List Int), List.Forall₂ KeepsUsable l l
  | [] => List.Forall₂.nil
  | _ :: t => List.Forall₂.cons (fun h => h) (forall₂_keeps_self t)

theorem forall₂_flatten_map {α β : Type} (g : α → List β) (S : β → β → Prop) :
    ∀ {l l' : List α}, List.Forall₂ (fun a b => List.Forall₂ S (g a) (g b)) l l' →
      List.Forall₂ S ((l.map g).flatten) ((l'.map g).flatten) := by
  intro l l' h
  induction h with
  | nil => exact List.Forall₂.nil
  | cons hx _ ih =>
    simp only [List.map_cons, List.flatten_cons]
    exact List.rel_append hx ih

/-! ## Block level -/

theorem lsbsBlock_cons (dc : Int) (ac : List Int) :
    lsbsBlock (dc :: ac) = ((ac.take 63).map lsbCoeff).flatten := by
  unfold lsbsBlock
  simp

theorem take63_embed_append (ac p1 : List Int) (hp : p1.length = (ac.take 63).length) :
    (p1 ++ ac.drop 63).take 63 = p1 := by
  by_cases hle : 63 ≤ ac.length
  · have h63 : p1.length = 63 := by
      rw [hp, List.length_take]
      omega
    rw [List.take_append_of_le_length (by omega), List.take_of_length_le (by omega)]
  · have hdrop : ac.drop 63 = [] := List.drop_of_length_le (by omega)
    rw [hdrop, List.append_nil,
      List.take_of_length_le (by rw [hp, List.length_take]; omega)]

theorem embedBlock_spec (block : List Int) (bits : List Nat)
    (hQ : ∀ c ∈ block, IsInt32 c) :
    lsbsBlock (embedBlock block bits).1
        = (bits.take (min bits.length (lsbsBlock block).length)).map (· &&& 1)
          ++ (lsbsBlock block).drop (min bits.length (lsbsBlock block).length) ∧
    (embedBlock block bits).2 = bits.drop (min bits.length (lsbsBlock block).length) := by
  cases block with
  | nil =>
    constructor <;> simp [embedBlock, lsbsBlock]
  | cons dc ac =>
    have hQ' : ∀ c ∈ ac.take 63, IsInt32 c :=
      fun c hc => hQ c (List.mem_cons_of_mem dc (List.take_subset 63 ac hc))
    obtain ⟨h1, h2⟩ := embedThread_spec embedCoeffStep lsbCoeff IsInt32
      (fun x bs hx => lsbCoeff_embedCoeffStep x bs hx) (ac.take 63) bits hQ'
    have hred : embedBlock (dc :: ac) bits =
        (dc :: ((embedThread embedCoeffStep (ac.take 63) bits).1 ++ ac.drop 63),
         (embedThread embedCoeffStep (ac.take 63) bits).2) := rfl
    rw [hred, lsbsBlock_cons]
    constructor
    · show lsbsBlock (dc :: ((embedThread embedCoeffStep (ac.take 63) bits).1 ++ ac.drop 63)) = _
      rw [lsbsBlock_cons,
        take63_embed_append ac _ (embedThread_length embedCoeffStep (ac.take 63) bits)]
      exact h1
    · exact h2

theorem embedBlock_keeps (block : List Int) (bits : List Nat)
    (hQ : ∀ c ∈ block, IsInt32 c) :
    List.Forall₂ KeepsUsable block (embedBlock block bits).1 := by
  cases block with
  | nil => exact List.Forall₂.nil
  | cons dc ac =>
    have hQ' : ∀ c ∈ ac.take 63, IsInt32 c :=
      fun c hc => hQ c (List.mem_cons_of_mem dc (List.take_subset 63 ac hc))
    have hthread : List.Forall₂ KeepsUsable (ac.take 63)
        (embedThread embedCoeffStep (ac.take 63) bits).1 :=
      embedThread_rel KeepsUsable embedCoeffStep IsInt32
        (fun x bs hx => embedCoeffStep_keeps x bs hx) (ac.take 63) bits hQ'
    have happ : List.Forall₂ KeepsUsable (List.take 63 ac ++ List.drop 63 ac)
        ((embedThread embedCoeffStep (ac.take 63) bits).1 ++ ac.drop 63) :=
      List.rel_append hthread (forall₂_keeps_self (ac.drop 63))
    rw [List.take_append_drop] at happ
    exact List.Forall₂.cons (fun h => h) happ

theorem extractBlock_take (block : List Int) (need : Nat) :
    extractBlock block need = (lsbsBlock block).take need := by
  cases block with
  | nil => simp [extractBlock, lsbsBlock]
  | cons dc ac =>
    show extractThread extractCoeffOne (ac.take 63) need = _
    rw [extractThread_spec extractCoeffOne lsbCoeff extractCoeffOne_take, lsbsBlock_cons]

/-! ## Component level -/

theorem embedComponent_spec (u : Bool) (comp : JPEGComponentCoefficients)
    (bits : List Nat) (hQ : ∀ c ∈ flattenComponent comp, IsInt32 c) :
    lsbsComponent u (embedComponent u comp bits).1
        = (bits.take (min bits.length (lsbsComponent u comp).length)).map (· &&& 1)
          ++ (lsbsComponent u comp).drop (min bits.length (lsbsComponent u comp).length) ∧
    (embedComponent u comp bits).2
        = bits.drop (min bits.length (lsbsComponent u comp).length) := by
  by_cases hskip : u = false ∧ comp.id ≠ 1
  · rw [embedComponent, if_pos hskip]
    constructor
    · simp [lsbsComponent, hskip]
    · simp [lsbsComponent, hskip]
  · rw [embedComponent, if_neg hskip]
    have hQrow : ∀ row ∈ comp.blocks, ∀ blk ∈ row, ∀ c ∈ blk, IsInt32 c := by
      intro row hrow blk hblk c hc
      apply hQ
      unfold flattenComponent
      simp only [List.mem_flatten, List.mem_map]
      exact ⟨row.flatten, ⟨row, hrow, rfl⟩, List.mem_flatten_of_mem hblk hc⟩
    obtain ⟨h1, h2⟩ := embedThread_spec (embedThread embedBlock)
      (fun row => (row.map lsbsBlock).flatten)
      (fun row => ∀ blk ∈ row, ∀ c ∈ blk, IsInt32 c)
      (fun row bs hq => embedThread_spec embedBlock lsbsBlock
        (fun blk => ∀ c ∈ blk, IsInt32 c)
        (fun blk bs' hb => embedBlock_spec blk bs' hb) row bs hq)
      comp.blocks bits hQrow
    have e2 : lsbsComponent u comp
        = ((comp.blocks.map fun row => (row.map lsbsBlock).flatten).flatten) := by
      unfold lsbsComponent
      rw [if_neg hskip]
    have e1 : lsbsComponent u
        ⟨comp.id, (embedThread (embedThread embedBlock) comp.blocks bits).1⟩
        = (((embedThread (embedThread embedBlock) comp.blocks bits).1.map
            fun row => (row.map lsbsBlock).flatten).flatten) := by
      unfold lsbsComponent
      rw [if_neg (by simpa using hskip)]
    constructor
    · show lsbsComponent u
          ⟨comp.id, (embedThread (embedThread embedBlock) comp.blocks bits).1⟩ = _
      rw [e1, e2]
      exact h1
    · show (embedThread (embedThread embedBlock) comp.blocks bits).2 = _
      rw [e2]
      exact h2

theorem embedComponent_keeps (u : Bool) (comp : JPEGComponentCoefficients)
    (bits : List Nat) (hQ : ∀ c ∈ flattenComponent comp, IsInt32 c) :
    List.Forall₂ KeepsUsable (flattenComponent comp)
      (flattenComponent (embedComponent u comp bits).1) := by
  by_cases hskip : u = false ∧ comp.id ≠ 1
  · rw [embedComponent, if_pos hskip]
    exact forall₂_keeps_self _
  · rw [embedComponent, if_neg hskip]
    have hQrow : ∀ row ∈ comp.blocks, ∀ blk ∈ row, ∀ c ∈ blk, IsInt32 c := by
      intro row hrow blk hblk c hc
      apply hQ
      unfold flattenComponent
      simp only [List.mem_flatten, List.mem_map]
      exact ⟨row.flatten, ⟨row, hrow, rfl⟩, List.mem_flatten_of_mem hblk hc⟩
    have hK := embedThread_rel
      (fun row row' : List (List Int) =>
        List.Forall₂ KeepsUsable row.flatten row'.flatten)
      (embedThread embedBlock) (fun row => ∀ blk ∈ row, ∀ c ∈ blk, IsInt32 c)
      (fun row bs hq => List.rel_flatten (embedThread_rel (List.Forall₂ KeepsUsable)
        embedBlock (fun blk => ∀ c ∈ blk, IsInt32 c)
        (fun blk bs' hb => embedBlock_keeps blk bs' hb) row bs hq))
      comp.blocks bits hQrow
    show List.Forall₂ KeepsUsable
      ((comp.blocks.map fun row : List (List Int) => row.flatten).flatten) _
    exact forall₂_flatten_map (fun row : List (List Int) => row.flatten) KeepsUsable hK

theorem extractComponent_take (u : Bool) (comp : JPEGComponentCoefficients)
    (need : Nat) : extractComponent u comp need = (lsbsComponent u comp).take need := by
  by_cases hskip : u = false ∧ comp.id ≠ 1
  · rw [extractComponent, if_pos hskip]
    rw [lsbsComponent, if_pos hskip]
    simp
  · rw [extractComponent, if_neg hskip]
    rw [extractThread_spec (extractThread extractBlock)
      (fun row => (row.map lsbsBlock).flatten)
      (fun row n => by
        rw [show extractThread extractBlock row n
            = ((row.map lsbsBlock).flatten).take n from
          extractThread_spec extractBlock lsbsBlock extractBlock_take row n])
      comp.blocks need]
    rw [lsbsComponent, if_neg hskip]

/-! ## Length accounting (capacity = number of usable coefficients / 8) -/

theorem lsbCoeff_length_flat (l : List Int) :
    ((l.map lsbCoeff).flatten).length = l.countP (fun c => usableCoeff c) := by
  induction l with
  | nil => simp
  | cons c t ih =>
    simp only [List.map_cons, List.flatten_cons, List.length_append, ih, List.countP_cons]
    by_cases hu : usableCoeff c = true
    · simp only [lsbCoeff, hu, if_pos]
      simp [hu]
      omega
    · have hu' : usableCoeff c = false := by simpa using hu
      simp [lsbCoeff, hu']

theorem lsbsBlock_length (block : List Int) :
    (lsbsBlock block).length = usableCountBlock block := by
  unfold lsbsBlock usableCountBlock
  exact lsbCoeff_length_flat _

theorem lsbsComponent_length (u : Bool) (comp : JPEGComponentCoefficients) :
    (lsbsComponent u comp).length = usableCountComponent u comp := by
  unfold lsbsComponent usableCountComponent
  by_cases hskip : u = false ∧ comp.id ≠ 1
  · rw [if_pos hskip, if_pos hskip]
    rfl
  · rw [if_neg hskip, if_neg hskip]
    rw [List.length_flatten, List.map_map]
    congr 1
    apply List.map_congr_left
    intro row _
    simp only [Function.comp_apply]
    rw [List.length_flatten, List.map_map]
    congr 1
    apply List.map_congr_left
    intro blk _
    simp only [Function.comp_apply]
    exact lsbsBlock_length blk

theorem lsbsCoeffs_length (coeffs : JPEGQuantizedCoefficients) (u : Bool) :
    (lsbsCoeffs coeffs u).length = (coeffs.components.map (usableCountComponent u)).sum := by
  unfold lsbsCoeffs
  rw [List.length_flatten, List.map_map]
  congr 1
  apply List.map_congr_left
  intro comp _
  simp only [Function.comp_apply]
  exact lsbsComponent_length u comp

theorem embedInCoefficients_eq (coeffs : JPEGQuantizedCoefficients)
    (messageBits : List Nat) (u : Bool) :
    embedInCoefficients coeffs messageBits u =
      if (embedThread (embedComponent u) coeffs.components messageBits).2 ≠ [] then
        (⟨(embedThread (embedComponent u) coeffs.components messageBits).1⟩,
         .error ("Message too large. Capacity: " ++
           toString (messageBits.length -
             (embedThread (embedComponent u) coeffs.components messageBits).2.length) ++
           " bits, Required: " ++ toString messageBits.length ++ " bits"))
      else
        (⟨(embedThread (embedComponent u) coeffs.components messageBits).1⟩,
         .ok ⟨(embedThread (embedComponent u) coeffs.components messageBits).1⟩) := rfl

theorem extractFromCoefficients_eq (coeffs : JPEGQuantizedCoefficients)
    (bitCount : Nat) (u : Bool) :
    extractFromCoefficients coeffs bitCount u =
      extractThread (extractComponent u) coeffs.components bitCount ++
        List.replicate (bitCount -
          (extractThread (extractComponent u) coeffs.components bitCount).length) 0 := rfl

/-! ## Claim C2 -/

/-- **C2**: for every JPEG coefficient set (of 32-bit coefficients) and every
payload of single bits whose length is at most 8 times the byte capacity of
`calculateJpegCoefficientCapacity` (same `useChroma` flag),
`extractFromCoefficients` after `embedInCoefficients` with the same bit count
and flag returns exactly the embedded bits; and after embedding, no
coefficient that was previously usable (value not in {0, 1, -1}) has
magnitude 0 or 1 (pointwise: usability is never destroyed). -/
theorem C2_jpeg_roundTrip (coeffs : JPEGQuantizedCoefficients) (bits : List Nat)
    (u : Bool) (h32 : ∀ c ∈ flattenCoeffs coeffs, IsInt32 c)
    (hbits : ∀ b ∈ bits, b < 2)
    (hcap : bits.length ≤ 8 * calculateJpegCoefficientCapacity coeffs u) :
    ∃ out, embedInCoefficients coeffs bits u = (out, .ok out) ∧
      extractFromCoefficients out bits.length u = bits ∧
      List.Forall₂ KeepsUsable (flattenCoeffs coeffs) (flattenCoeffs out) := by
  have hQ : ∀ comp ∈ coeffs.components, ∀ c ∈ flattenComponent comp, IsInt32 c := by
    intro comp hcomp c hc
    apply h32
    unfold flattenCoeffs
    exact List.mem_flatten_of_mem (List.mem_map_of_mem flattenComponent hcomp) hc
  obtain ⟨h1, h2⟩ := embedThread_spec (embedComponent u) (lsbsComponent u)
    (fun comp => ∀ c ∈ flattenComponent comp, IsInt32 c)
    (fun comp bs hc => embedComponent_spec u comp bs hc)
    coeffs.components bits hQ
  have hLlen : ((coeffs.components.map (lsbsComponent u)).flatten).length
      = (coeffs.components.map (usableCountComponent u)).sum := by
    have hc := lsbsCoeffs_length coeffs u
    unfold lsbsCoeffs at hc
    exact hc
  have hL : bits.length ≤ ((coeffs.components.map (lsbsComponent u)).flatten).length := by
    rw [hLlen]
    unfold calculateJpegCoefficientCapacity at hcap
    omega
  have hmin : min bits.length ((coeffs.components.map (lsbsComponent u)).flatten).length
      = bits.length := by omega
  rw [hmin] at h1 h2
  have hrest : (embedThread (embedComponent u) coeffs.components bits).2 = [] := by
    rw [h2, List.drop_length]
  have hmap : bits.map (· &&& 1) = bits := by
    have he : bits.map (· &&& 1) = bits.map id := by
      apply List.map_congr_left
      intro x hx
      rw [land_one_eq_mod]
      exact Nat.mod_eq_of_lt (hbits x hx)
    rw [he, List.map_id]
  refine ⟨⟨(embedThread (embedComponent u) coeffs.components bits).1⟩, ?_, ?_, ?_⟩
  · rw [embedInCoefficients_eq, if_neg (by simp [hrest])]
  · rw [extractFromCoefficients_eq]
    have hext : extractThread (extractComponent u)
        (embedThread (embedComponent u) coeffs.components bits).1 bits.length
        = (((embedThread (embedComponent u) coeffs.components bits).1.map
            (lsbsComponent u)).flatten).take bits.length :=
      extractThread_spec (extractComponent u) (lsbsComponent u)
        (extractComponent_take u) _ _
    rw [hext, h1, List.take_length]
    rw [List.take_append_of_le_length (by simp),
      List.take_of_length_le (by simp), hmap]
    simp
  · have hK := embedThread_rel
      (fun comp comp' => List.Forall₂ KeepsUsable
        (flattenComponent comp) (flattenComponent comp'))
      (embedComponent u) (fun comp => ∀ c ∈ flattenComponent comp, IsInt32 c)
      (fun comp bs hc => embedComponent_keeps u comp bs hc)
      coeffs.components bits hQ
    show List.Forall₂ KeepsUsable ((coeffs.components.map flattenComponent).flatten) _
    exact forall₂_flatten_map flattenComponent KeepsUsable hK

set_option maxRecDepth 8192 in
theorem C2_witness :
    (∀ c ∈ flattenCoeffs ⟨[⟨1, [[(0 : Int) :: 5 :: -9 :: 2 :: 3 :: -4 :: 6 :: 7 :: 8 :: List.replicate 55 0]]⟩]⟩, IsInt32 c) ∧
    (∀ b ∈ ([1, 0, 1, 1, 0, 1, 0, 0] : List Nat), b < 2) ∧
    ([1, 0, 1, 1, 0, 1, 0, 0] : List Nat).length ≤ 8 *
      calculateJpegCoefficientCapacity
        ⟨[⟨1, [[(0 : Int) :: 5 :: -9 :: 2 :: 3 :: -4 :: 6 :: 7 :: 8 :: List.replicate 55 0]]⟩]⟩ true ∧
    (∃ out, embedInCoefficients
        ⟨[⟨1, [[(0 : Int) :: 5 :: -9 :: 2 :: 3 :: -4 :: 6 :: 7 :: 8 :: List.replicate 55 0]]⟩]⟩
        [1, 0, 1, 1, 0, 1, 0, 0] true = (out, .ok out) ∧
      extractFromCoefficients out 8 true = [1, 0, 1, 1, 0, 1, 0, 0] ∧
      List.Forall₂ KeepsUsable
        (flattenCoeffs ⟨[⟨1, [[(0 : Int) :: 5 :: -9 :: 2 :: 3 :: -4 :: 6 :: 7 :: 8 :: List.replicate 55 0]]⟩]⟩)
        (flattenCoeffs out)) :=
  ⟨by decide, by decide, by decide,
    C2_jpeg_roundTrip _ _ true (by decide) (by decide) (by decide)⟩

/-! ## Claim C5 -/

/-- **C5** (amended): an over-capacity payload makes both embedders throw a
capacity-exceeded error.  `embedLSB` raises it before any write and returns
the caller's pixel buffer untouched; `embedInCoefficients`, however, only
raises it after scanning (and writing through) every usable coefficient, so
on the error path the coefficient carrier may already be mutated (the
counterexample exhibits this). -/
theorem C5_capacity_error (p m : List Nat) (d : Nat)
    (coeffs : JPEGQuantizedCoefficients) (bits : List Nat) (u : Bool)
    (hd1 : 1 ≤ d) (hd4 : d ≤ 4)
    (hover : m.length > lsbMaxBits p.length d)
    (h32 : ∀ c ∈ flattenCoeffs coeffs, IsInt32 c)
    (h8 : bits.length % 8 = 0)
    (hover2 : bits.length > 8 * calculateJpegCoefficientCapacity coeffs u) :
    embedLSB p m d = (p, .error ("Message too large. Max capacity: " ++
      toString (lsbMaxBits p.length d) ++ " bits, got: " ++
      toString m.length ++ " bits")) ∧
    (embedInCoefficients coeffs bits u).2 = .error ("Message too large. Capacity: " ++
      toString ((coeffs.components.map (usableCountComponent u)).sum) ++
      " bits, Required: " ++ toString bits.length ++ " bits") := by
  constructor
  · unfold embedLSB
    rw [if_neg (by omega), if_pos hover]
  · have hQ : ∀ comp ∈ coeffs.components, ∀ c ∈ flattenComponent comp, IsInt32 c := by
      intro comp hcomp c hc
      apply h32
      unfold flattenCoeffs
      exact List.mem_flatten_of_mem (List.mem_map_of_mem flattenComponent hcomp) hc
    obtain ⟨h1, h2⟩ := embedThread_spec (embedComponent u) (lsbsComponent u)
      (fun comp => ∀ c ∈ flattenComponent comp, IsInt32 c)
      (fun comp bs hc => embedComponent_spec u comp bs hc)
      coeffs.components bits hQ
    have hLlen : ((coeffs.components.map (lsbsComponent u)).flatten).length
        = (coeffs.components.map (usableCountComponent u)).sum := by
      have hc := lsbsCoeffs_length coeffs u
      unfold lsbsCoeffs at hc
      exact hc
    have hS : (coeffs.components.map (usableCountComponent u)).sum < bits.length := by
      unfold calculateJpegCoefficientCapacity at hover2
      omega
    have hmin : min bits.length ((coeffs.components.map (lsbsComponent u)).flatten).length
        = (coeffs.components.map (usableCountComponent u)).sum := by
      rw [hLlen]
      omega
    rw [hmin] at h2
    have hne : (embedThread (embedComponent u) coeffs.components bits).2 ≠ [] := by
      rw [h2]
      intro hcontra
      have := congrArg List.length hcontra
      simp only [List.length_drop, List.length_nil] at this
      omega
    rw [embedInCoefficients_eq, if_pos hne]
    have hlen2 : (embedThread (embedComponent u) coeffs.components bits).2.length
        = bits.length - (coeffs.components.map (usableCountComponent u)).sum := by
      rw [h2]
      simp
    rw [hlen2]
    have : bits.length - (bits.length - (coeffs.components.map (usableCountComponent u)).sum)
        = (coeffs.components.map (usableCountComponent u)).sum := by omega
    rw [this]

set_option maxRecDepth 8192 in
theorem C5_witness :
    (([1, 1, 1, 1] : List Nat).length > lsbMaxBits ([0, 0, 0, 255] : List Nat).length 1) ∧
    (([1, 0, 1, 0, 1, 0, 1, 0] : List Nat).length > 8 *
      calculateJpegCoefficientCapacity ⟨[⟨1, [[(0 : Int) :: 2 :: List.replicate 62 0]]⟩]⟩ true) ∧
    (embedLSB [0, 0, 0, 255] [1, 1, 1, 1] 1 =
      ([0, 0, 0, 255], .error ("Message too large. Max capacity: " ++
        toString (lsbMaxBits ([0, 0, 0, 255] : List Nat).length 1) ++ " bits, got: " ++
        toString ([1, 1, 1, 1] : List Nat).length ++ " bits")) ∧
    (embedInCoefficients ⟨[⟨1, [[(0 : Int) :: 2 :: List.replicate 62 0]]⟩]⟩
        [1, 0, 1, 0, 1, 0, 1, 0] true).2 =
      .error ("Message too large. Capacity: " ++
        toString (((⟨[⟨1, [[(0 : Int) :: 2 :: List.replicate 62 0]]⟩]⟩ :
          JPEGQuantizedCoefficients).components.map (usableCountComponent true)).sum) ++
        " bits, Required: " ++ toString ([1, 0, 1, 0, 1, 0, 1, 0] : List Nat).length ++ " bits")) :=
  ⟨by decide, by decide,
    C5_capacity_error [0, 0, 0, 255] [1, 1, 1, 1] 1
      ⟨[⟨1, [[(0 : Int) :: 2 :: List.replicate 62 0]]⟩]⟩ [1, 0, 1, 0, 1, 0, 1, 0] true
      (by decide) (by decide) (by decide) (by decide) (by decide) (by decide)⟩

set_option maxRecDepth 8192 in
/-- **C5 counterexample**: the claim as stated is false for the coefficient
path — on a concrete one-component set whose single usable coefficient is 2,
an over-capacity payload (1 byte > capacity 0 bytes) does raise the
capacity error, but the carrier has already been mutated when it is raised
(the coefficient 2 has become 3). -/
theorem C5_counterexample :
    ((embedInCoefficients ⟨[⟨1, [[(0 : Int) :: 2 :: List.replicate 62 0]]⟩]⟩
        [1, 0, 1, 0, 1, 0, 1, 0] true).2 =
      .error "Message too large. Capacity: 1 bits, Required: 8 bits") ∧
    (embedInCoefficients ⟨[⟨1, [[(0 : Int) :: 2 :: List.replicate 62 0]]⟩]⟩
        [1, 0, 1, 0, 1, 0, 1, 0] true).1 ≠
      ⟨[⟨1, [[(0 : Int) :: 2 :: List.replicate 62 0]]⟩]⟩ := by
  constructor
  · rfl
  · decide

/-! ## Claim C4 -/

theorem u32leGet_u32le (n : Nat) (h : n < 4294967296) : u32leGet (u32le n) = n := by
  unfold u32le u32leGet
  simp only [List.getD_cons_zero, List.getD_cons_succ]
  omega

/-- **C4 counterexample**: the claim as stated is false — `parseFileHeader`
demands `bytes.length ≥ payloadOffset + fileSize`, so parsing the bare
header returned by `prepareFileHeader` (with no payload appended) always
yields `null`; and the empty file name is rejected even with a payload
appended. -/
theorem C4_counterexample :
    parseFileHeader (fun l => l.map Char.ofNat)
      (prepareFileHeader (fun s => s.map Char.toNat) ['a'] 1) = none ∧
    parseFileHeader (fun l => l.map Char.ofNat)
      (prepareFileHeader (fun s => s.map Char.toNat) [] 1 ++ [0]) = none := by
  constructor
  · decide
  · decide

/-- **C4** (amended): for every non-empty file name whose UTF-8 encoding is
at most 255 bytes and every size with `0 < size ≤ MAX_EMBED_FILE_SIZE`,
`parseFileHeader` applied to `prepareFileHeader name size` **followed by at
least `size` payload bytes** returns a result whose `fileName` is the
sanitized name and whose `fileSize` is exactly `size` (`utf8enc`/`utf8dec`
are the platform text codecs, assumed to round-trip on `name`). -/
theorem C4_header_roundTrip (utf8enc : List Char → List Nat)
    (utf8dec : List Nat → List Char) (name : List Char) (size : Nat)
    (payload : List Nat)
    (hdec : utf8dec (utf8enc name) = name)
    (hname : name ≠ [])
    (hlen : (utf8enc name).length ≤ 255)
    (hsz1 : 0 < size) (hsz2 : size ≤ MAX_EMBED_FILE_SIZE)
    (hpay : size ≤ payload.length) :
    parseFileHeader utf8dec (prepareFileHeader utf8enc name size ++ payload) =
      some ⟨sanitizeFilename name, size, 2 + (utf8enc name).length + 4⟩ := by
  have hMAX : MAX_EMBED_FILE_SIZE = 10485760 := by norm_num [MAX_EMBED_FILE_SIZE]
  have hb : prepareFileHeader utf8enc name size ++ payload
      = 0x55 :: ((utf8enc name).length % 256) ::
        ((utf8enc name) ++ (u32le size ++ payload)) := by
    unfold prepareFileHeader
    simp [List.append_assoc]
  have hmod : (utf8enc name).length % 256 = (utf8enc name).length := by omega
  rw [hb, hmod]
  have hlentot : (0x55 :: (utf8enc name).length ::
      ((utf8enc name) ++ (u32le size ++ payload))).length
      = 2 + (utf8enc name).length + 4 + payload.length := by
    simp [u32le]
    omega
  have hget1 : (0x55 :: (utf8enc name).length ::
      ((utf8enc name) ++ (u32le size ++ payload))).getD 1 0 = (utf8enc name).length := by
    rfl
  have hdrop2 : (0x55 :: (utf8enc name).length ::
      ((utf8enc name) ++ (u32le size ++ payload))).drop 2
      = (utf8enc name) ++ (u32le size ++ payload) := rfl
  have htake : ((utf8enc name) ++ (u32le size ++ payload)).take (utf8enc name).length
      = utf8enc name := by
    rw [List.take_append_of_le_length (Nat.le_refl _), List.take_length]
  have hdropL : (0x55 :: (utf8enc name).length ::
      ((utf8enc name) ++ (u32le size ++ payload))).drop (2 + (utf8enc name).length)
      = u32le size ++ payload := by
    rw [show 2 + (utf8enc name).length = (utf8enc name).length + 1 + 1 by omega]
    rw [List.drop_succ_cons, List.drop_succ_cons]
    have h0 := @List.drop_append _ (utf8enc name) (u32le size ++ payload) 0
    simp only [Nat.add_zero, List.drop_zero] at h0
    exact h0
  have htake4 : (u32le size ++ payload).take 4 = u32le size := by
    rw [show (4:Nat) = (u32le size).length by simp [u32le],
      List.take_append_of_le_length (Nat.le_refl _), List.take_length]
  have hsize : u32leGet ((u32le size ++ payload).take 4) = size := by
    rw [htake4]
    exact u32leGet_u32le size (by omega)
  unfold parseFileHeader
  rw [if_neg (by rw [hlentot]; omega)]
  rw [if_neg (by simp)]
  rw [hget1, hdrop2, hdropL, htake, hsize, hdec]
  rw [if_neg (by unfold MAX_FILENAME_LENGTH; omega)]
  rw [if_neg (by rw [hlentot]; omega)]
  rw [if_neg hname]
  rw [if_neg (by omega)]
  rw [if_neg (by rw [hlentot]; omega)]

theorem C4_witness :
    ((fun l : List Nat => l.map Char.ofNat)
        ((fun s : List Char => s.map Char.toNat) ['a', '.', 'b']) = ['a', '.', 'b']) ∧
    parseFileHeader (fun l => l.map Char.ofNat)
        (prepareFileHeader (fun s => s.map Char.toNat) ['a', '.', 'b'] 2 ++ [9, 9]) =
      some ⟨sanitizeFilename ['a', '.', 'b'], 2,
        2 + ((fun s : List Char => s.map Char.toNat) ['a', '.', 'b']).length + 4⟩ :=
  ⟨by decide,
    C4_header_roundTrip (fun s => s.map Char.toNat) (fun l => l.map Char.ofNat)
      ['a', '.', 'b'] 2 [9, 9] (by decide) (by decide) (by decide) (by decide)
      (by decide) (by decide)⟩

/-! ## Claim C8 -/

theorem mem_sanitizeBase (l : List Char) (c : Char) (h : c ∈ sanitizeBase l) :
    isHazardChar c = false := by
  unfold sanitizeBase trimChars at h
  rw [List.mem_reverse] at h
  replace h := (List.dropWhile_sublist _).subset h
  rw [List.mem_reverse] at h
  replace h := (List.dropWhile_sublist _).subset h
  replace h := (List.dropWhile_sublist _).subset h
  have := List.of_mem_filter h
  simpa using this

theorem lastIndexOfChar_lt_length (c : Char) (l : List Char) (i : Nat)
    (h : lastIndexOfChar c l = some i) : i < l.length := by
  unfold lastIndexOfChar at h
  rw [Option.map_eq_some'] at h
  obtain ⟨r, hr, hi⟩ := h
  have hne : l ≠ [] := by
    intro hnil
    subst hnil
    simp at hr
  have hlen : 0 < l.length := List.length_pos_of_ne_nil hne
  omega

set_option maxRecDepth 16384 in
/-- **C8 counterexample**: the claim as stated is false.  Leading dots
survive when preceded by whitespace (the anchored `^\.+` runs before
`trim()`): `sanitizeFilename " .a" = ".a"`.  And the length clamp fails when
the extension itself is longer than 255 characters: an input `a.bbb…b`
(300 `b`s) sanitizes to a 301-character name. -/
theorem C8_counterexample :
    sanitizeFilename [' ', '.', 'a'] = ['.', 'a'] ∧
    (sanitizeFilename ('a' :: '.' :: List.replicate 300 'b')).length = 301 := by
  constructor
  · decide
  · decide

/-- **C8** (amended): for every input, `sanitizeFilename` returns a
non-empty name containing none of the hazard characters
`/ \ ? % * : | " < >`.  (The leading-dot and 255-length guarantees of the
original claim do not hold, as the counterexample shows.) -/
theorem C8_sanitize_nonempty_hazardfree (l : List Char) :
    sanitizeFilename l ≠ [] ∧
    (sanitizeFilename l).all (fun c => !isHazardChar c) = true := by
  unfold sanitizeFilename
  by_cases h0 : l = []
  · rw [if_pos h0]
    exact ⟨by decide, by decide⟩
  · rw [if_neg h0]
    by_cases h1 : sanitizeBase l = []
    · rw [if_pos h1]
      exact ⟨by decide, by decide⟩
    · rw [if_neg h1]
      have hmemall : ∀ c ∈ sanitizeBase l, (!isHazardChar c) = true := by
        intro c hc
        simp [mem_sanitizeBase l c hc]
      have hM : MAX_FILENAME_LENGTH = 255 := rfl
      by_cases h2 : (sanitizeBase l).length > MAX_FILENAME_LENGTH
      · rw [if_pos h2]
        rw [hM] at h2
        split
        · rename_i ext hfind
          have hlt := lastIndexOfChar_lt_length '.' (sanitizeBase l) ext hfind
          by_cases hext : ext > 0
          · rw [if_pos hext]
            constructor
            · intro hcontra
              have hlc := congrArg List.length hcontra
              simp only [List.length_append, List.length_drop, List.length_nil] at hlc
              omega
            · rw [List.all_eq_true]
              intro c hc
              rcases List.mem_append.mp hc with hc1 | hc2
              · exact hmemall c (List.take_subset _ _ (List.take_subset _ _ hc1))
              · exact hmemall c (List.drop_subset _ _ hc2)
          · rw [if_neg hext]
            constructor
            · intro hcontra
              have hlc := congrArg List.length hcontra
              simp only [List.length_take, List.length_nil, hM] at hlc
              omega
            · rw [List.all_eq_true]
              intro c hc
              exact hmemall c (List.take_subset _ _ hc)
        · constructor
          · intro hcontra
            have hlc := congrArg List.length hcontra
            simp only [List.length_take, List.length_nil, hM] at hlc
            omega
          · rw [List.all_eq_true]
            intro c hc
            exact hmemall c (List.take_subset _ _ hc)
      · rw [if_neg h2]
        refine ⟨h1, ?_⟩
        rw [List.all_eq_true]
        exact hmemall

/-! ## Claim C7 -/

theorem zwcDigit_of_lt (d : Nat) (h : d < 6) :
    (if ZWC_MAP.contains (zwcChar d) then some (ZWC_MAP.indexOf (zwcChar d)) else none)
      = some d := by
  interval_cases d <;> decide

theorem zwcDigits_cons_digit (d : Nat) (h : d < 6) (rest : List Char) :
    zwcDigits (zwcChar d :: rest) = d :: zwcDigits rest := by
  unfold zwcDigits
  simp only [List.filterMap_cons]
  rw [zwcDigit_of_lt d h]

theorem zwcDigits_byteChars (v : Nat) :
    zwcDigits ((byteToDigits v).map zwcChar) = byteToDigits v := by
  unfold byteToDigits
  simp only [List.map_cons, List.map_nil]
  rw [zwcDigits_cons_digit _ (by omega), zwcDigits_cons_digit _ (by omega),
    zwcDigits_cons_digit _ (by omega), zwcDigits_cons_digit _ (by omega)]
  rfl

theorem zwcDigits_append (a b : List Char) :
    zwcDigits (a ++ b) = zwcDigits a ++ zwcDigits b := by
  unfold zwcDigits
  rw [List.filterMap_append]

set_option maxRecDepth 100000 in
theorem base6_recompose :
    ∀ v < 256, v / 216 % 6 * 216 + v / 36 % 6 * 36 + v / 6 % 6 * 6 + v % 6 = v := by
  decide

theorem digitGroups_byte (v : Nat) (h : v < 256) (rest : List Nat) :
    digitGroupsToBytes (byteToDigits v ++ rest) = v :: digitGroupsToBytes rest := by
  unfold byteToDigits
  simp only [List.cons_append, List.nil_append]
  rw [digitGroupsToBytes]
  congr 1
  have hrec := base6_recompose v h
  omega

theorem digitGroups_flatten : ∀ (b : List Nat), (∀ x ∈ b, x < 256) →
    digitGroupsToBytes ((b.map byteToDigits).flatten) = b
  | [], _ => rfl
  | v :: rest, hb => by
    rw [List.map_cons, List.flatten_cons, digitGroups_byte v (hb v (by simp)),
      digitGroups_flatten rest (fun x hx => hb x (by simp [hx]))]

theorem zwcDigits_bytesToZWC (b : List Nat) :
    zwcDigits (bytesToZWC b) = (b.map byteToDigits).flatten := by
  induction b with
  | nil => rfl
  | cons v rest ih =>
    rw [bytesToZWC, zwcDigits_append, zwcDigits_byteChars v, ih, List.map_cons,
      List.flatten_cons]

theorem byteDigits_flatten_length (b : List Nat) :
    ((b.map byteToDigits).flatten).length = 4 * b.length := by
  induction b with
  | nil => rfl
  | cons v rest ih =>
    simp only [List.map_cons, List.flatten_cons, List.length_append, ih,
      List.length_cons]
    have h4 : (byteToDigits v).length = 4 := rfl
    omega

theorem zwcToBytes_bytesToZWC (b : List Nat) (hb : ∀ x ∈ b, x < 256) :
    zwcToBytes (bytesToZWC b) = .ok b := by
  unfold zwcToBytes
  rw [zwcDigits_bytesToZWC, if_neg (by rw [byteDigits_flatten_length]; omega)]
  rw [digitGroups_flatten b hb]

/-- **C7 counterexample**: the claim as stated is false — the 4-character
encoding of byte 6 is `[ZWSP, ZWSP, ZWNJ, ZWSP]`, which contains the
3-character start sentinel `[ZWSP, ZWNJ, ZWSP]` as a substring, so the
sentinel combination is producible by the digit mapping alone. -/
theorem C7_counterexample :
    List.IsInfix startSentinel (bytesToZWC [6]) ∧
    bytesToZWC [6] = '\u200B' :: startSentinel :=
  ⟨⟨['\u200B'], [], by decide⟩, by decide⟩

/-- **C7** (amended): sentinel character sequences can occur inside the
base-6 digit encoding (byte 6's encoding contains the start sentinel), so
the "reserved, not otherwise producible" property fails; what does hold is
that the digit mapping is losslessly invertible: `zwcToBytes` recovers every
byte sequence from `bytesToZWC` exactly (the decoder relies on the first
sentinel occurrence and the length prefix, not on sentinel-freedom). -/
theorem C7_zwc_digit_roundTrip (b : List Nat) (hb : ∀ x ∈ b, x < 256) :
    zwcToBytes (bytesToZWC b) = .ok b :=
  zwcToBytes_bytesToZWC b hb

theorem C7_witness :
    (∀ x ∈ ([0, 6, 255, 37] : List Nat), x < 256) ∧
    zwcToBytes (bytesToZWC [0, 6, 255, 37]) = .ok [0, 6, 255, 37] :=
  ⟨by decide, C7_zwc_digit_roundTrip [0, 6, 255, 37] (by decide)⟩

/-! ## Claim C3 -/

theorem u32le_lt (n : Nat) : ∀ x ∈ u32le n, x < 256 := by
  intro x hx
  simp only [u32le, List.mem_cons, List.not_mem_nil, or_false] at hx
  rcases hx with rfl | rfl | rfl | rfl <;> omega

theorem bytesToZWC_append (a b : List Nat) :
    bytesToZWC (a ++ b) = bytesToZWC a ++ bytesToZWC b := by
  induction a with
  | nil => rfl
  | cons v rest ih =>
    simp only [List.cons_append, bytesToZWC, List.append_eq, ih, List.append_assoc]

theorem bytesToZWC_length (b : List Nat) :
    (bytesToZWC b).length = 4 * b.length := by
  induction b with
  | nil => rfl
  | cons v rest ih =>
    simp only [bytesToZWC, List.length_append, List.length_map, ih, List.length_cons]
    have h4 : (byteToDigits v).length = 4 := rfl
    rw [h4]
    omega

theorem isZWC_zwcChar (d : Nat) : isZWC (zwcChar d) = true := by
  by_cases h : d < 6
  · interval_cases d <;> decide
  · unfold zwcChar
    rw [List.getD_eq_default _ _ (show ZWC_MAP.length ≤ d by
      simp only [ZWC_MAP, List.length_cons, List.length_nil]; omega)]
    decide

theorem bytesToZWC_all_zwc (b : List Nat) : ∀ c ∈ bytesToZWC b, isZWC c = true := by
  induction b with
  | nil => intro c hc; cases hc
  | cons v rest ih =>
    intro c hc
    simp only [bytesToZWC, List.mem_append, List.mem_map] at hc
    rcases hc with ⟨d, _, rfl⟩ | hc
    · exact isZWC_zwcChar d
    · exact ih c hc

theorem stripZWC_of_free (l : List Char) (h : ∀ c ∈ l, isZWC c = false) :
    stripZWC l = l := by
  unfold stripZWC
  apply List.filter_eq_self.mpr
  intro a ha
  simp [h a ha]

theorem listIndexOf_sentinel (pre rest : List Char) (hpre : ∀ c ∈ pre, isZWC c = false) :
    listIndexOf startSentinel (pre ++ (startSentinel ++ rest)) = some pre.length := by
  induction pre with
  | nil =>
    show listIndexOf startSentinel (startSentinel ++ rest) = some 0
    simp [listIndexOf, startSentinel, List.isPrefixOf]
  | cons c pre' ih =>
    have hne : ¬ (startSentinel.isPrefixOf (c :: (pre' ++ (startSentinel ++ rest))) = true) := by
      intro hpref
      have hc := hpre c (List.mem_cons_self c pre')
      rw [show startSentinel = '\u200B' :: ['\u200C', '\u200B'] from rfl] at hpref
      simp only [List.isPrefixOf, Bool.and_eq_true] at hpref
      have h1 := hpref.1
      rw [beq_iff_eq] at h1
      rw [← h1] at hc
      exact absurd hc (by decide)
    simp only [List.cons_append, listIndexOf, List.append_eq]
    rw [if_neg hne, ih (fun x hx => hpre x (List.mem_cons_of_mem c hx))]
    simp

theorem decodeText_none (ext : TextCodecExt) (stego password : List Char)
    (h : listIndexOf startSentinel stego = none) :
    decodeText ext stego password = .ok (stripZWC stego, none) := by
  unfold decodeText
  rw [h]

theorem decodeText_some (ext : TextCodecExt) (stego password : List Char) (i : Nat)
    (h : listIndexOf startSentinel stego = some i) :
    decodeText ext stego password =
      if ((stego.drop (i + startSentinel.length)).filter isZWC).length < 16 then
        .ok (stripZWC (stego.take i), none)
      else
        match decodeTextCore ext ((stego.drop (i + startSentinel.length)).filter isZWC)
            password with
        | .error e => .error ("Decoding failed: " ++ e)
        | .ok secret => .ok (stripZWC (stego.take i), some secret) := by
  unfold decodeText
  rw [h]

theorem decodeTextCore_eq (ext : TextCodecExt) (data : List Nat) (password : List Char)
    (hb : ∀ x ∈ data, x < 256) (hn : data.length < 4294967296) :
    decodeTextCore ext (bytesToZWC (u32le data.length ++ data) ++ endSentinel) password =
      decodePipelineTail ext password data := by
  have hu32len : (bytesToZWC (u32le data.length)).length = 16 := by
    rw [bytesToZWC_length]; rfl
  have happ : bytesToZWC (u32le data.length ++ data)
      = bytesToZWC (u32le data.length) ++ bytesToZWC data := bytesToZWC_append _ _
  unfold decodeTextCore
  rw [happ, List.append_assoc]
  have htake16 : (bytesToZWC (u32le data.length)
      ++ (bytesToZWC data ++ endSentinel)).take 16
      = bytesToZWC (u32le data.length) := List.take_left' hu32len
  rw [htake16, zwcToBytes_bytesToZWC _ (u32le_lt data.length)]
  simp only [u32leGet_u32le data.length hn]
  rw [if_neg (by
    simp only [List.length_append, hu32len, bytesToZWC_length]
    have he : endSentinel.length = 3 := rfl
    omega)]
  rw [← List.append_assoc]
  have hABlen : (bytesToZWC (u32le data.length) ++ bytesToZWC data).length
      = 16 + data.length * 4 := by
    simp only [List.length_append, hu32len, bytesToZWC_length]
    omega
  rw [List.take_left' hABlen, List.drop_left' hu32len,
    zwcToBytes_bytesToZWC data hb]

theorem pipeline_ok (ext : TextCodecExt) (secret password : List Char)
    (hdec : password ≠ [] → ext.decryptF password (ext.encryptF password
        (ext.compressF (ext.utf8enc secret))) = .ok (ext.compressF (ext.utf8enc secret)))
    (hcomp : ext.decompressF (ext.compressF (ext.utf8enc secret))
        = .ok (ext.utf8enc secret))
    (hutf : ext.utf8dec (ext.utf8enc secret) = .ok secret) :
    decodePipelineTail ext password (processedData ext secret password) = .ok secret := by
  unfold decodePipelineTail
  by_cases hp : password = []
  · subst hp
    have hpd : processedData ext secret [] = ext.compressF (ext.utf8enc secret) := by
      unfold processedData
      rw [if_neg (by simp)]
    simp [hpd, hcomp, hutf]
  · have hpd : processedData ext secret password
        = ext.encryptF password (ext.compressF (ext.utf8enc secret)) := by
      unfold processedData
      rw [if_pos hp]
    simp [hp, hpd, hdec hp, hcomp, hutf]

theorem encodeText_eq (ext : TextCodecExt) (cover secret password : List Char) :
    encodeText ext cover secret password
      = cover ++ (startSentinel
          ++ (bytesToZWC (u32le (processedData ext secret password).length
              ++ processedData ext secret password) ++ endSentinel)) := by
  unfold encodeText processedData
  simp [List.append_assoc]

theorem decodeText_payload (ext : TextCodecExt) (pre mid secret password : List Char)
    (hpre : ∀ c ∈ pre, isZWC c = false)
    (hmid : mid.filter isZWC
      = bytesToZWC (u32le (processedData ext secret password).length
          ++ processedData ext secret password) ++ endSentinel)
    (hbytes : ∀ x ∈ processedData ext secret password, x < 256)
    (hlen : (processedData ext secret password).length < 4294967296)
    (hdec : password ≠ [] → ext.decryptF password (ext.encryptF password
        (ext.compressF (ext.utf8enc secret))) = .ok (ext.compressF (ext.utf8enc secret)))
    (hcomp : ext.decompressF (ext.compressF (ext.utf8enc secret))
        = .ok (ext.utf8enc secret))
    (hutf : ext.utf8dec (ext.utf8enc secret) = .ok secret) :
    decodeText ext (pre ++ (startSentinel ++ mid)) password = .ok (pre, some secret) := by
  rw [decodeText_some ext _ password pre.length (listIndexOf_sentinel pre mid hpre)]
  have hdropPre : (pre ++ (startSentinel ++ mid)).drop (pre.length + startSentinel.length)
      = mid := by
    rw [← List.append_assoc]
    exact List.drop_left' (by rw [List.length_append])
  have htakePre : (pre ++ (startSentinel ++ mid)).take pre.length = pre :=
    List.take_left' rfl
  rw [hdropPre, hmid, htakePre, stripZWC_of_free pre hpre]
  rw [if_neg (by
    simp only [List.length_append, bytesToZWC_length]
    have he : endSentinel.length = 3 := rfl
    have h4 : (u32le (processedData ext secret password).length).length = 4 := rfl
    omega)]
  rw [decodeTextCore_eq ext (processedData ext secret password) password hbytes hlen,
    pipeline_ok ext secret password hdec hcomp hutf]

/-- **C3** (amended): with the external collaborators (DEFLATE, AES-CTR,
UTF-8) satisfying their round-trip contracts, `decodeText` after
`encodeText` recovers the secret exactly — provided the cover text is free
of zero-width characters (for an arbitrary cover the claim fails: a cover
containing sentinel characters derails decoding, see the counterexample);
the same holds for any spec-modelled distribute-mode stego text; and on
text with no start sentinel `decodeText` returns a null secret and the
input stripped of stray zero-width characters. -/
theorem C3_text_roundTrip (ext : TextCodecExt) (cover secret password : List Char)
    (hcover : ∀ c ∈ cover, isZWC c = false)
    ( _hsecret : secret.length ≤ MAX_SECRET_LENGTH)
    (hbytes : ∀ x ∈ processedData ext secret password, x < 256)
    (hlen : (processedData ext secret password).length < 4294967296)
    (hdec : password ≠ [] → ext.decryptF password (ext.encryptF password
        (ext.compressF (ext.utf8enc secret))) = .ok (ext.compressF (ext.utf8enc secret)))
    (hcomp : ext.decompressF (ext.compressF (ext.utf8enc secret))
        = .ok (ext.utf8enc secret))
    (hutf : ext.utf8dec (ext.utf8enc secret) = .ok secret) :
    decodeText ext (encodeText ext cover secret password) password
        = .ok (cover, some secret) ∧
    (∀ t pre mid, IsDistributedStego ext pre mid secret password t →
      decodeText ext t password = .ok (pre, some secret)) ∧
    (∀ t, listIndexOf startSentinel t = none →
      decodeText ext t password = .ok (stripZWC t, none)) := by
  refine ⟨?_, ?_, ?_⟩
  · rw [encodeText_eq]
    refine decodeText_payload ext cover _ secret password hcover ?_ hbytes hlen hdec hcomp hutf
    apply List.filter_eq_self.mpr
    intro a ha
    rcases List.mem_append.mp ha with h | h
    · exact bytesToZWC_all_zwc _ a h
    · simp only [endSentinel, List.mem_cons, List.not_mem_nil, or_false] at h
      rcases h with rfl | rfl | rfl <;> decide
  · intro t pre mid hd
    have hd' := hd
    unfold IsDistributedStego at hd'
    obtain ⟨ht, hpre2, hmid2⟩ := hd'
    subst ht
    have hdrop3 : (encodeText ext [] secret password).drop 3
        = bytesToZWC (u32le (processedData ext secret password).length
            ++ processedData ext secret password) ++ endSentinel := by
      rw [encodeText_eq, List.nil_append]
      exact List.drop_left' rfl
    rw [List.append_assoc]
    exact decodeText_payload ext pre mid secret password hpre2 (hmid2.trans hdrop3)
      hbytes hlen hdec hcomp hutf
  · intro t ht
    exact decodeText_none ext t password ht

theorem C3_witness :
    (∀ c ∈ (['h', 'i'] : List Char), isZWC c = false) ∧
    (decodeText identityExt (encodeText identityExt ['h', 'i'] ['a'] ['p']) ['p']
        = .ok (['h', 'i'], some ['a']) ∧
      (∀ t pre mid, IsDistributedStego identityExt pre mid ['a'] ['p'] t →
        decodeText identityExt t ['p'] = .ok (pre, some ['a'])) ∧
      (∀ t, listIndexOf startSentinel t = none →
        decodeText identityExt t ['p'] = .ok (stripZWC t, none))) :=
  ⟨by decide, C3_text_roundTrip identityExt ['h', 'i'] ['a'] ['p'] (by decide) (by decide)
    (by decide) (by decide) (fun _ => rfl) rfl rfl⟩

/-- **C3 counterexample**: the claim as stated quantifies over every cover
text, but a cover that itself contains the start sentinel derails decoding:
with identity collaborators, hiding `"h"` (no password) in the cover
`START_SENTINEL ++ U+2061` produces a stego text whose first sentinel
occurrence is inside the cover, the length prefix is misread from shifted
digits, and `decodeText` throws instead of returning the secret. -/
theorem C3_counterexample :
    decodeText identityExt
        (encodeText identityExt (startSentinel ++ ['\u2061']) ['h'] []) []
      = .error "Decoding failed: Incomplete data - payload appears truncated" := by
  rfl

end UnderByte
